import Mathlib

/-!
Shallow embedding of the CPU-scheduling simulator (`OS Project/main.py`) and
proofs about its four policy engines (FCFS, SJF, Priority, Round Robin) and
its metrics calculator.

Python integers are modelled as `Int`, Python dicts as insertion-ordered
association lists, and the unbounded `while` loops of the SJF/Priority/Round
Robin engines as fuelled recursion whose fuel is an upper bound on the number
of loop iterations; the termination theorems below prove that for valid inputs
the fuel is never the binding constraint, so the fuelled run coincides with
the Python run.  Python runtime failures (`IndexError` on `processes[i]`,
`KeyError` on `completed[pid]`) are modelled as `Except` errors.
-/

set_option autoImplicit false

namespace CPUSched

/-- A process descriptor as built from one row of the input table
(line 182 of the source): pid, arrival, burst, priority. -/
structure Process where
  pid : String
  arrival : Int
  burst : Int
  priority : Int
deriving DecidableEq

/-- One Gantt-chart entry `{'pid': ..., 'start': ..., 'end': ...}`. -/
structure Event where
  pid : String
  start : Int
  «end» : Int
deriving DecidableEq

/-- One completion record `{'arrival': ..., 'burst': ..., 'completion': ...}`. -/
structure CompRec where
  arrival : Int
  burst : Int
  completion : Int
deriving DecidableEq

/-- A Python `dict` with string keys, as an insertion-ordered association list
whose keys are pairwise distinct by construction. -/
abbrev Dict (α : Type) := List (String × α)

/-- Python dict assignment `d[k] = v`: overwrite the value in place if the key
exists, else append. -/
def dictInsert {α : Type} (k : String) (v : α) : Dict α → Dict α
  | [] => [(k, v)]
  | (a, b) :: d => if a = k then (k, v) :: d else (a, b) :: dictInsert k v d

/-- Dictionary lookup, `none` when the key is absent. -/
def dictGet {α : Type} (k : String) : Dict α → Option α
  | [] => none
  | (a, b) :: d => if a = k then some b else dictGet k d

/-- The `results` dictionary every engine returns: pid to completion record. -/
abbrev Results := Dict CompRec

/-- Python's stable `list.sort(key=...)` on process lists, modelled as the
stable insertion sort; elements with equal keys keep their original order,
exactly as in CPython's stable sort. -/
def sortByKey (key : Process → Int) (l : List Process) : List Process :=
  List.insertionSort (fun a b => key a ≤ key b) l

/-- The in-place `processes.sort(key=lambda p: p['arrival'])`, the first
statement of all four engines (lines 13, 34, 64, 94). -/
def sortByArrival (l : List Process) : List Process :=
  sortByKey (fun p => p.arrival) l

/-- Loop body of `fcfs` (lines 18-27): walk the arrival-sorted list, emit an
IDLE event when the clock lags behind the next arrival, then run the process
to completion. -/
def fcfsLoop : List Process → Int → List Event → Results → List Event × Results
  | [], _, gantt, results => (gantt, results)
  | p :: ps, time, gantt, results =>
    let gantt1 := if time < p.arrival then gantt ++ [⟨"IDLE", time, p.arrival⟩] else gantt
    let time1 := if time < p.arrival then p.arrival else time
    fcfsLoop ps (time1 + p.burst) (gantt1 ++ [⟨p.pid, time1, time1 + p.burst⟩])
      (dictInsert p.pid ⟨p.arrival, p.burst, time1 + p.burst⟩ results)

/-- Model of `fcfs(processes)` (lines 12-28).  The clock starts at 0, not at
the first arrival. -/
def fcfs (processes : List Process) : List Event × Results :=
  fcfsLoop (sortByArrival processes) 0 [] []

/-- Failures of the Python engines: `IndexError` from `processes[i]` on an
out-of-range index, `KeyError` from `completed[pid]`, and exhaustion of the
fuel bounding the unbounded `while` loops of this embedding. -/
inductive SimErr
  | indexError
  | keyError
  | fuelExhausted
deriving DecidableEq

/-- The guard `processes[i]['arrival'] <= time` of the arrival-absorbing
inner loops (lines 42, 72, 103, 121). -/
def arrivedBy (time : Int) (p : Process) : Bool :=
  decide (p.arrival ≤ time)

/-- State of the SJF/Priority main loop: `pending` is the not-yet-enqueued
suffix `processes[i:]` of the sorted list, the rest mirrors the Python locals. -/
structure SPState where
  pending : List Process
  ready : List Process
  time : Int
  gantt : List Event
  results : Results
deriving DecidableEq

/-- Result of one iteration of a `while` loop body. -/
inductive StepRes (σ : Type) (α : Type)
  | done (out : α)
  | next (s : σ)
  | fail (e : SimErr)
deriving DecidableEq

/-- One iteration of the SJF/Priority `while` loop (lines 41-57 / 71-87):
absorb arrived processes into the ready queue, jump the clock on an empty
queue, otherwise stably sort the queue by `key` and run its head to
completion.  `key` is the burst for SJF and the priority for Priority. -/
def spStep (key : Process → Int) (n : Nat) (s : SPState) : StepRes SPState (List Event × Results) :=
  if s.results.length < n then
    match s.ready ++ s.pending.takeWhile (arrivedBy s.time) with
    | [] =>
      match s.pending.dropWhile (arrivedBy s.time) with
      | [] => .fail .indexError
      | p :: l => .next ⟨p :: l, [], p.arrival, s.gantt, s.results⟩
    | r :: rs =>
      match sortByKey key (r :: rs) with
      | [] => .fail .indexError
      | p :: rest =>
        .next ⟨s.pending.dropWhile (arrivedBy s.time), rest, s.time + p.burst,
          s.gantt ++ [⟨p.pid, s.time, s.time + p.burst⟩],
          dictInsert p.pid ⟨p.arrival, p.burst, s.time + p.burst⟩ s.results⟩
  else .done (s.gantt, s.results)

/-- The SJF/Priority `while` loop, with fuel bounding the iteration count. -/
def loopSP (key : Process → Int) (n : Nat) : Nat → SPState → Except SimErr (List Event × Results)
  | 0, _ => .error .fuelExhausted
  | fuel + 1, s =>
    match spStep key n s with
    | .done out => .ok out
    | .fail e => .error e
    | .next s' => loopSP key n fuel s'

/-- Fuel sufficient for the SJF/Priority loop: each iteration either completes
a process or is an idle jump immediately followed by a completion. -/
def spFuel (processes : List Process) : Nat :=
  2 * processes.length + 1

/-- Common shape of `sjf` (lines 33-58) and `priority` (lines 63-88), which
differ only in the ready-queue sort key.  `processes[0]['arrival']` on an
empty list is Python's `IndexError`. -/
def sjfLike (key : Process → Int) (processes : List Process) : Except SimErr (List Event × Results) :=
  match sortByArrival processes with
  | [] => .error .indexError
  | p0 :: ps => loopSP key processes.length (spFuel processes) ⟨p0 :: ps, [], p0.arrival, [], []⟩

/-- Model of `sjf(processes)`: ready queue sorted by burst (line 51). -/
def sjf (processes : List Process) : Except SimErr (List Event × Results) :=
  sjfLike (fun p => p.burst) processes

/-- Model of `priority(processes)`: ready queue sorted by priority number
(line 81). -/
def priority (processes : List Process) : Except SimErr (List Event × Results) :=
  sjfLike (fun p => p.priority) processes

/-- State of the Round Robin main loop (lines 102-128). -/
structure RRState where
  pending : List Process
  ready : List Process
  time : Int
  gantt : List Event
  remaining : Dict Int
  completed : Dict Int
deriving DecidableEq

/-- One iteration of the Round Robin `while` loop (lines 102-128): absorb
arrivals, jump the clock on an empty queue, otherwise run the head for
`min(quantum, remaining)`, absorb the processes that arrived by the new
clock (`arrival <= time`, line 121), and only then re-enqueue the head if it
is unfinished. -/
def rrStep (quantum : Int) (n : Nat) (s : RRState) : StepRes RRState (List Event × Dict Int) :=
  if s.completed.length < n then
    match s.ready ++ s.pending.takeWhile (arrivedBy s.time) with
    | [] =>
      match s.pending.dropWhile (arrivedBy s.time) with
      | [] => .fail .indexError
      | p :: l => .next ⟨p :: l, [], p.arrival, s.gantt, s.remaining, s.completed⟩
    | p :: rest =>
      match dictGet p.pid s.remaining with
      | none => .fail .keyError
      | some rem =>
        let pend1 := s.pending.dropWhile (arrivedBy s.time)
        let e := s.time + min quantum rem
        if 0 < rem - min quantum rem then
          .next ⟨pend1.dropWhile (arrivedBy e),
            (rest ++ pend1.takeWhile (arrivedBy e)) ++ [p], e,
            s.gantt ++ [⟨p.pid, s.time, e⟩],
            dictInsert p.pid (rem - min quantum rem) s.remaining, s.completed⟩
        else
          .next ⟨pend1.dropWhile (arrivedBy e),
            rest ++ pend1.takeWhile (arrivedBy e), e,
            s.gantt ++ [⟨p.pid, s.time, e⟩],
            dictInsert p.pid (rem - min quantum rem) s.remaining,
            dictInsert p.pid e s.completed⟩
  else .done (s.gantt, s.completed)

/-- The Round Robin `while` loop, with fuel bounding the iteration count. -/
def loopRR (quantum : Int) (n : Nat) : Nat → RRState → Except SimErr (List Event × Dict Int)
  | 0, _ => .error .fuelExhausted
  | fuel + 1, s =>
    match rrStep quantum n s with
    | .done out => .ok out
    | .fail e => .error e
    | .next s' => loopRR quantum n fuel s'

/-- Line 98: `remaining = {p['pid']: p['burst'] for p in processes}`. -/
def initRemaining (l : List Process) : Dict Int :=
  l.foldl (fun d p => dictInsert p.pid p.burst d) []

/-- Fuel sufficient for the Round Robin loop when the quantum is positive:
every slice removes at least one unit of remaining work, and every idle jump
is immediately followed by a slice. -/
def rrFuel (processes : List Process) : Nat :=
  (2 * (processes.map Process.burst).sum + 1).toNat

/-- Line 130: `{p['pid']: {..., 'completion': completed[p['pid']]} for p in
processes}`; a pid missing from `completed` is Python's `KeyError`. -/
def buildResults (completed : Dict Int) : List Process → Results → Except SimErr Results
  | [], acc => .ok acc
  | p :: ps, acc =>
    match dictGet p.pid completed with
    | none => .error .keyError
    | some c => buildResults completed ps (dictInsert p.pid ⟨p.arrival, p.burst, c⟩ acc)

/-- Model of `round_robin(processes, quantum)` (lines 93-131). -/
def round_robin (processes : List Process) (quantum : Int) : Except SimErr (List Event × Results) :=
  match sortByArrival processes with
  | [] => .error .indexError
  | p0 :: ps =>
    match loopRR quantum processes.length (rrFuel processes)
        ⟨p0 :: ps, [], p0.arrival, [], initRemaining (p0 :: ps), []⟩ with
    | .error e => .error e
    | .ok (gantt, completed) =>
      match buildResults completed (p0 :: ps) [] with
      | .error e => .error e
      | .ok results => .ok (gantt, results)

/-- One row of the metrics table produced by `calculate_metrics`. -/
structure MetricsRow where
  pid : String
  arrival : Int
  burst : Int
  completion : Int
  turnaround : Int
  waiting : Int
deriving DecidableEq

/-- Model of `calculate_metrics(results)` (lines 136-145): per-record turnaround
and waiting in exact integer arithmetic, plus the two column averages as exact
rationals.  The program computes the averages with pandas float64 `.mean()`
(lines 143-144; the spec types them `float`), so the program returns the
float64 roundings of the two rational averages computed here; `Float64Repr`
below captures what this development assumes about those roundings. -/
def calculate_metrics (results : Results) : List MetricsRow × ℚ × ℚ :=
  let data := results.map (fun r =>
    let tat := r.2.completion - r.2.arrival
    let wt := tat - r.2.burst
    (⟨r.1, r.2.arrival, r.2.burst, r.2.completion, tat, wt⟩ : MetricsRow))
  (data, ((data.map MetricsRow.waiting).sum : Int) / (data.length : ℚ),
    ((data.map MetricsRow.turnaround).sum : Int) / (data.length : ℚ))

/-- Modelled from the spec: the averages the program returns are floats
(section 6 types `computeMetrics` as returning `avgWaiting: float,
avgTurnaround: float`, computed by pandas float64 `.mean()`).  The model keeps
only one fact about IEEE-754 doubles: every finite double is an integer
multiple of a power of two, i.e. a dyadic rational.  Whatever rounding pandas
performs, its result satisfies this predicate, so a non-dyadic exact mean can
never be returned exactly. -/
def Float64Repr (x : ℚ) : Prop :=
  ∃ (m : Int) (k : Nat), x = (m : ℚ) / 2 ^ k

/-- The four selectable policies (line 166). -/
inductive Policy
  | FCFS
  | SJF
  | Priority
  | RoundRobin
deriving DecidableEq

/-- The dispatch on `algo` (lines 186-193): the chosen engine is called
directly on the process list; no validation happens first. -/
def simulate (algo : Policy) (processes : List Process) (quantum : Int) :
    Except SimErr (List Event × Results) :=
  match algo with
  | .FCFS => .ok (fcfs processes)
  | .SJF => sjf processes
  | .Priority => priority processes
  | .RoundRobin => round_robin processes quantum

/-! Specification-side vocabulary used to state the claims. -/

/-- Duration of a timeline event. -/
def dur (e : Event) : Int := e.«end» - e.start

/-- Total duration the timeline attributes to `pid`, excluding IDLE events. -/
def pidTime (pid : String) : List Event → Int
  | [] => 0
  | e :: g => (if e.pid = pid ∧ e.pid ≠ "IDLE" then dur e else 0) + pidTime pid g

/-- Total burst the process list attributes to `pid`. -/
def burstSumP (pid : String) (l : List Process) : Int :=
  (l.map (fun x => if x.pid = pid then x.burst else 0)).sum

/-- The claims' validity conditions on a process set: unique pids, no
negative arrival, every burst positive. -/
def ValidPS (ps : List Process) : Prop :=
  (ps.map Process.pid).Nodup ∧ ∀ p ∈ ps, 0 ≤ p.arrival ∧ 0 < p.burst

instance (ps : List Process) : Decidable (ValidPS ps) := by
  unfold ValidPS; infer_instance

/-- Event `a` ends no later than event `b` starts. -/
def evLE (a b : Event) : Prop := a.«end» ≤ b.start

/-- Event `a` ends exactly when event `b` starts. -/
def evEQ (a b : Event) : Prop := a.«end» = b.start

/-- Start of the first timeline event (0 for an empty timeline). -/
def headStart : List Event → Int
  | [] => 0
  | e :: _ => e.start

/-- The pids of the ready queue after one Round Robin loop iteration, used to
observe the enqueue order of claim C4. -/
def stepReadyPids (quantum : Int) (n : Nat) (s : RRState) : List String :=
  match rrStep quantum n s with
  | .next s' => s'.ready.map Process.pid
  | _ => []

/-- The caller's process list after any engine call: all four engines begin
with `processes.sort(key=lambda p: p['arrival'])`, an in-place stable sort of
the caller's own list object. -/
def postCallProcesses (processes : List Process) : List Process :=
  sortByArrival processes

/-- Bookkeeping invariant of the SJF/Priority loop: completions plus queued
processes account for all `n` processes, queued pids are distinct, and no
queued process has a completion record yet. -/
def SPInv (n : Nat) (s : SPState) : Prop :=
  s.results.length + (s.pending.length + s.ready.length) = n ∧
  ((s.pending ++ s.ready).map Process.pid).Nodup ∧
  ∀ x ∈ s.pending ++ s.ready, dictGet x.pid s.results = none

/-- Bookkeeping invariant of the Round Robin loop, mirroring `SPInv`. -/
def RRInv (n : Nat) (s : RRState) : Prop :=
  s.completed.length + (s.pending.length + s.ready.length) = n ∧
  ((s.pending ++ s.ready).map Process.pid).Nodup ∧
  ∀ x ∈ s.pending ++ s.ready, dictGet x.pid s.completed = none

/-- Every queued Round Robin process still has strictly positive remaining
work recorded for its pid. -/
def RRRem (s : RRState) : Prop :=
  ∀ x ∈ s.pending ++ s.ready, ∃ r, dictGet x.pid s.remaining = some r ∧ 0 < r

/-- Total remaining work of the queued Round Robin processes, the termination
measure of the loop. -/
def remSum (s : RRState) : Int :=
  ((s.pending ++ s.ready).map (fun x => (dictGet x.pid s.remaining).getD 0)).sum

/-! Basic lemmas about the sort and the dictionaries. -/

theorem sortByKey_perm (key : Process → Int) (l : List Process) :
    (sortByKey key l).Perm l :=
  List.perm_insertionSort _ l

theorem sortByArrival_perm (l : List Process) : (sortByArrival l).Perm l :=
  sortByKey_perm _ l

theorem sortByArrival_sorted (l : List Process) :
    (sortByArrival l).Sorted (fun a b => a.arrival ≤ b.arrival) := by
  haveI : IsTotal Process (fun a b => a.arrival ≤ b.arrival) := ⟨fun a b => le_total _ _⟩
  haveI : IsTrans Process (fun a b => a.arrival ≤ b.arrival) := ⟨fun _ _ _ h h' => le_trans h h'⟩
  exact List.sorted_insertionSort _ l

theorem fcfsLoop_length (l : List Process) :
    ∀ t g r, g.length + l.length ≤ (fcfsLoop l t g r).1.length := by
  induction l with
  | nil => intro t g r; simp [fcfsLoop]
  | cons p ps ih =>
    intro t g r
    have h := ih (( if t < p.arrival then p.arrival else t) + p.burst)
      ((if t < p.arrival then g ++ [⟨"IDLE", t, p.arrival⟩] else g) ++
        [⟨p.pid, if t < p.arrival then p.arrival else t,
          (if t < p.arrival then p.arrival else t) + p.burst⟩])
      (dictInsert p.pid ⟨p.arrival, p.burst,
        (if t < p.arrival then p.arrival else t) + p.burst⟩ r)
    simp only [fcfsLoop]
    refine le_trans ?_ h
    by_cases hlt : t < p.arrival <;> simp [hlt] <;> omega

/-- C5 (confirmed): on the tie input P1(0,5), P2(0,5) the SJF engine runs P1
first (stable insertion-order tie-break of the ready-queue sort) and produces
completions P1 = 5 and P2 = 10; the engine is a pure function, so this holds
on every invocation and for every choice of the unused priority fields. -/
theorem c5_sjf_tie_deterministic :
    ∀ pr1 pr2 : Int, sjf [⟨"P1", 0, 5, pr1⟩, ⟨"P2", 0, 5, pr2⟩] =
      Except.ok ([⟨"P1", 0, 5⟩, ⟨"P2", 5, 10⟩], [("P1", ⟨0, 5, 5⟩), ("P2", ⟨0, 5, 10⟩)]) :=
  fun _ _ => rfl

/-- C10 (confirmed): on the empty process list FCFS returns an empty timeline
and empty completion map, while SJF, Priority and Round Robin hit the
`IndexError` branch (`processes[0]` on an empty list) immediately, for every
quantum. -/
theorem c10_empty_input_behavior :
    fcfs [] = ([], []) ∧
    sjf [] = Except.error SimErr.indexError ∧
    priority [] = Except.error SimErr.indexError ∧
    ∀ q : Int, round_robin [] q = Except.error SimErr.indexError :=
  ⟨rfl, rfl, rfl, fun _ => rfl⟩

/-- C6 counterexample: the list [P1(0,2), P1(1,3)] has a duplicated pid, yet
the simulation reports no validation error: FCFS runs to completion and
returns a full two-event timeline, the later completion record silently
overwriting the earlier one. -/
theorem c6_counterexample :
    ¬ ValidPS [⟨"P1", 0, 2, 1⟩, ⟨"P1", 1, 3, 1⟩] ∧
    simulate .FCFS [⟨"P1", 0, 2, 1⟩, ⟨"P1", 1, 3, 1⟩] 2 =
      Except.ok ([⟨"P1", 0, 2⟩, ⟨"P1", 2, 5⟩], [("P1", ⟨1, 3, 5⟩)]) :=
  ⟨by decide, rfl⟩

/-- C6 (corrected): the code performs no input validation at all.  The
dispatcher hands the raw process list straight to the selected engine, and
FCFS unconditionally produces at least one timeline event per process, for
every input, valid or not. -/
theorem c6_no_validation :
    (∀ ps : List Process, ps.length ≤ (fcfs ps).1.length) ∧
    (∀ (ps : List Process) (q : Int), simulate .FCFS ps q = Except.ok (fcfs ps)) := by
  constructor
  · intro ps
    have h := fcfsLoop_length (sortByArrival ps) 0 [] []
    have hlen : (sortByArrival ps).length = ps.length := (sortByArrival_perm ps).length_eq
    simpa [fcfs, hlen] using h
  · intro ps q; rfl

/-- C8 counterexample: running any engine on the list [P2(1,3), P1(0,4)]
leaves the caller's list sorted by arrival, i.e. reordered to [P1, P2]: the
in-place `processes.sort(...)` mutates the input sequence. -/
theorem c8_counterexample :
    postCallProcesses [⟨"P2", 1, 3, 1⟩, ⟨"P1", 0, 4, 1⟩] ≠
      [⟨"P2", 1, 3, 1⟩, ⟨"P1", 0, 4, 1⟩] := by
  decide

/-- C8 (corrected): after an engine call the caller's list holds the same
processes (a permutation of the original) but stably sorted by arrival, not
necessarily in the original order. -/
theorem c8_inplace_sort_perm_sorted :
    ∀ ps : List Process, (postCallProcesses ps).Perm ps ∧
      (postCallProcesses ps).Sorted (fun a b => a.arrival ≤ b.arrival) :=
  fun ps => ⟨sortByArrival_perm ps, sortByArrival_sorted ps⟩

/-- C4 counterexample: quantum 2, state with P1(0,4) at the head of the ready
queue and P2(2,3) still pending.  P1 runs the slice [0,2); P2 arrives exactly
at the new clock 2, and the code enqueues it BEFORE the unfinished P1
(`arrival <= time` on line 121 is closed at the new clock), so the ready
queue becomes [P2, P1] and not [P1, P2] as the claim asserts. -/
theorem c4_counterexample :
    stepReadyPids 2 2 ⟨[⟨"P2", 2, 3, 1⟩], [⟨"P1", 0, 4, 1⟩], 0, [], [("P1", 4), ("P2", 3)], []⟩ ≠
      ["P1", "P2"] ∧
    stepReadyPids 2 2 ⟨[⟨"P2", 2, 3, 1⟩], [⟨"P1", 0, 4, 1⟩], 0, [], [("P1", 4), ("P2", 3)], []⟩ =
      ["P2", "P1"] := by
  exact ⟨by decide, rfl⟩

/-- On an arrival-sorted list, membership in `takeWhile (arrivedBy t)` is
exactly having arrived by `t`. -/
theorem mem_takeWhile_arrivedBy_iff (t : Int) (l : List Process)
    (hs : l.Sorted (fun a b => a.arrival ≤ b.arrival)) (x : Process) (hx : x ∈ l) :
    x ∈ l.takeWhile (arrivedBy t) ↔ x.arrival ≤ t := by
  induction l with
  | nil => cases hx
  | cons a l ih =>
    rw [List.sorted_cons] at hs
    rw [List.takeWhile_cons]
    by_cases ha : a.arrival ≤ t
    · rw [if_pos (by simp [arrivedBy, ha])]
      rcases List.mem_cons.mp hx with rfl | hx'
      · simp [ha]
      · simp only [List.mem_cons]
        constructor
        · rintro (rfl | h)
          · exact ha
          · exact ((ih hs.2 hx').mp h)
        · intro h; exact Or.inr ((ih hs.2 hx').mpr h)
    · rw [if_neg (by simp [arrivedBy, ha])]
      simp only [List.not_mem_nil, false_iff]
      rcases List.mem_cons.mp hx with rfl | hx'
      · exact ha
      · intro hxt; exact ha (le_trans (hs.1 x hx') hxt)

/-- C4 (corrected): when process p finishes a slice at the new clock
`s.time + min quantum rem` and is unfinished, the processes enqueued before
p are exactly the pending ones whose arrival lies in the CLOSED interval up
to the new clock (`arrival <= time`, line 121), appended in pending (arrival)
order; hence a process arriving exactly at the new clock is enqueued BEFORE
the unfinished p, not after it. -/
theorem c4_enqueue_closed_interval (quantum : Int) (n : Nat) (s : RRState)
    (p : Process) (rest : List Process) (rem : Int)
    (hlt : s.completed.length < n)
    (hready : s.ready ++ s.pending.takeWhile (arrivedBy s.time) = p :: rest)
    (hrem : dictGet p.pid s.remaining = some rem)
    (hunfin : 0 < rem - min quantum rem) :
    rrStep quantum n s = .next
      ⟨(s.pending.dropWhile (arrivedBy s.time)).dropWhile (arrivedBy (s.time + min quantum rem)),
        (rest ++ (s.pending.dropWhile (arrivedBy s.time)).takeWhile
          (arrivedBy (s.time + min quantum rem))) ++ [p],
        s.time + min quantum rem,
        s.gantt ++ [⟨p.pid, s.time, s.time + min quantum rem⟩],
        dictInsert p.pid (rem - min quantum rem) s.remaining, s.completed⟩ ∧
    ((s.pending.dropWhile (arrivedBy s.time)).Sorted (fun a b => a.arrival ≤ b.arrival) →
      ∀ x ∈ s.pending.dropWhile (arrivedBy s.time),
        (x ∈ (s.pending.dropWhile (arrivedBy s.time)).takeWhile
          (arrivedBy (s.time + min quantum rem)) ↔ x.arrival ≤ s.time + min quantum rem)) := by
  constructor
  · simp only [rrStep, if_pos hlt, hready, hrem, if_pos hunfin]
  · intro hs x hx
    exact mem_takeWhile_arrivedBy_iff _ _ hs x hx

/-- Witness for C4's corrected statement at the counterexample state: P1(0,4)
runs [0,2) with quantum 2; P2(2,3) arrives exactly at the new clock 2 and is
enqueued before the unfinished P1. -/
theorem c4_witness :
    rrStep 2 2 ⟨[⟨"P2", 2, 3, 1⟩], [⟨"P1", 0, 4, 1⟩], 0, [], [("P1", 4), ("P2", 3)], []⟩ =
      .next ⟨[], [⟨"P2", 2, 3, 1⟩, ⟨"P1", 0, 4, 1⟩], 2, [⟨"P1", 0, 2⟩],
        [("P1", 2), ("P2", 3)], []⟩ := by
  have h := (c4_enqueue_closed_interval 2 2
    ⟨[⟨"P2", 2, 3, 1⟩], [⟨"P1", 0, 4, 1⟩], 0, [], [("P1", 4), ("P2", 3)], []⟩
    ⟨"P1", 0, 4, 1⟩ [] 4 (by decide) rfl rfl (by decide)).1
  simpa using h

/-- Counterexample refuting C7 as stated: the program returns the two averages
as pandas float64 values (lines 143-144), and every finite float64 is a dyadic
rational, so the returned avgWaiting cannot equal the exact arithmetic mean of
the waiting column whenever that mean is not dyadic.  FCFS on P1(0,2), P2(0,3),
P3(0,2) yields completion records with waitings 0, 2 and 5, whose exact mean
7/3 is not dyadic. -/
theorem c7_counterexample :
    fcfs [⟨"P1", 0, 2, 1⟩, ⟨"P2", 0, 3, 1⟩, ⟨"P3", 0, 2, 1⟩] =
      ([⟨"P1", 0, 2⟩, ⟨"P2", 2, 5⟩, ⟨"P3", 5, 7⟩],
       [("P1", ⟨0, 2, 2⟩), ("P2", ⟨0, 3, 5⟩), ("P3", ⟨0, 2, 7⟩)]) ∧
    (calculate_metrics
      [("P1", ⟨0, 2, 2⟩), ("P2", ⟨0, 3, 5⟩), ("P3", ⟨0, 2, 7⟩)]).2.1 = 7 / 3 ∧
    ¬ Float64Repr (7 / 3) := by
  refine ⟨by decide, by norm_num [calculate_metrics], ?_⟩
  rintro ⟨m, k, hmk⟩
  have hmk2 : (7 : ℚ) * 2 ^ k = (m : ℚ) * 3 := by
    rw [div_eq_div_iff (by norm_num) (by positivity)] at hmk
    exact hmk
  have hZ : (7 : Int) * 2 ^ k = m * 3 := by exact_mod_cast hmk2
  have hdvd : (3 : Int) ∣ 7 * 2 ^ k := ⟨m, by linarith⟩
  rcases (Int.prime_three.dvd_mul).mp hdvd with h | h
  · norm_num at h
  · have h2 := Int.prime_three.dvd_of_dvd_pow h
    norm_num at h2

/-- C7 corrected: the metrics calculator is a pure function that returns one
row per completion record with turnaround = completion − arrival and waiting =
turnaround − burst in exact integer arithmetic, and computes the exact rational
means of the waiting and turnaround columns — of which the program returns the
float64 roundings.  The last two conjuncts record the transfer constraint: a
float64-representable (dyadic) value can equal an exact mean only when that
mean is itself dyadic, which the counterexample shows can fail. -/
theorem c7_metrics_float (results : Results) (_hne : results ≠ []) :
    (calculate_metrics results).1.length = results.length ∧
    (∀ i (h : i < results.length), ∃ row,
      (calculate_metrics results).1[i]? = some row ∧
      row.pid = (results.get ⟨i, h⟩).1 ∧
      row.arrival = (results.get ⟨i, h⟩).2.arrival ∧
      row.burst = (results.get ⟨i, h⟩).2.burst ∧
      row.completion = (results.get ⟨i, h⟩).2.completion ∧
      row.turnaround = row.completion - row.arrival ∧
      row.waiting = row.turnaround - row.burst) ∧
    (calculate_metrics results).2.1 =
      ((results.map (fun r => r.2.completion - r.2.arrival - r.2.burst)).sum : Int) /
        (results.length : ℚ) ∧
    (calculate_metrics results).2.2 =
      ((results.map (fun r => r.2.completion - r.2.arrival)).sum : Int) /
        (results.length : ℚ) ∧
    (∀ x : ℚ, Float64Repr x → x = (calculate_metrics results).2.1 →
      Float64Repr ((calculate_metrics results).2.1)) ∧
    (∀ x : ℚ, Float64Repr x → x = (calculate_metrics results).2.2 →
      Float64Repr ((calculate_metrics results).2.2)) := by
  refine ⟨by simp [calculate_metrics], ?_, ?_, ?_, ?_, ?_⟩
  · intro i h
    refine ⟨⟨(results.get ⟨i, h⟩).1, (results.get ⟨i, h⟩).2.arrival,
      (results.get ⟨i, h⟩).2.burst, (results.get ⟨i, h⟩).2.completion,
      (results.get ⟨i, h⟩).2.completion - (results.get ⟨i, h⟩).2.arrival,
      (results.get ⟨i, h⟩).2.completion - (results.get ⟨i, h⟩).2.arrival -
        (results.get ⟨i, h⟩).2.burst⟩, ?_, rfl, rfl, rfl, rfl, rfl, rfl⟩
    simp only [calculate_metrics, List.getElem?_map,
      List.getElem?_eq_getElem h, Option.map_some']
    rfl
  · simp only [calculate_metrics]
    rw [List.map_map, List.length_map]
    rfl
  · simp only [calculate_metrics]
    rw [List.map_map, List.length_map]
    rfl
  · exact fun x hx he => he ▸ hx
  · exact fun x hx he => he ▸ hx

/-- Witness for the corrected C7 at the completion records of the spec's FCFS
scenario: the exact average waiting is 3/2, a dyadic rational, so on this
input the float64 the program returns can coincide with the exact mean. -/
theorem c7_float_witness :
    (calculate_metrics [("P1", ⟨0, 4, 4⟩), ("P2", ⟨1, 3, 7⟩)]).2.1 =
      (([("P1", (⟨0, 4, 4⟩ : CompRec)), ("P2", ⟨1, 3, 7⟩)].map
        (fun r => r.2.completion - r.2.arrival - r.2.burst)).sum : Int) / (2 : ℚ) := by
  have h := (c7_metrics_float [("P1", ⟨0, 4, 4⟩), ("P2", ⟨1, 3, 7⟩)] (by decide)).2.2.1
  simpa using h

/-! Dictionary lemmas. -/

theorem dictGet_insert_self {α : Type} (k : String) (v : α) (d : Dict α) :
    dictGet k (dictInsert k v d) = some v := by
  induction d with
  | nil => simp [dictInsert, dictGet]
  | cons a d ih =>
    obtain ⟨a1, a2⟩ := a
    by_cases h : a1 = k
    · simp [dictInsert, dictGet, h]
    · simp [dictInsert, dictGet, h, ih]

theorem dictGet_insert_ne {α : Type} (k k' : String) (v : α) (d : Dict α) (h : k' ≠ k) :
    dictGet k' (dictInsert k v d) = dictGet k' d := by
  induction d with
  | nil => simp [dictInsert, dictGet, Ne.symm h]
  | cons a d ih =>
    obtain ⟨a1, a2⟩ := a
    by_cases h1 : a1 = k
    · subst h1
      simp [dictInsert, dictGet, Ne.symm h]
    · simp only [dictInsert, if_neg h1]
      by_cases h2 : a1 = k'
      · simp [dictGet, h2]
      · simp [dictGet, h2, ih]

theorem dictInsert_length {α : Type} (k : String) (v : α) (d : Dict α)
    (h : dictGet k d = none) : (dictInsert k v d).length = d.length + 1 := by
  induction d with
  | nil => simp [dictInsert]
  | cons a d ih =>
    obtain ⟨a1, a2⟩ := a
    by_cases h1 : a1 = k
    · rw [dictGet, if_pos h1] at h; cases h
    · rw [dictGet, if_neg h1] at h
      simp [dictInsert, h1, ih h]

theorem dictGet_insert_isSome {α : Type} (k k' : String) (v : α) (d : Dict α)
    (h : (dictGet k' d).isSome) : (dictGet k' (dictInsert k v d)).isSome := by
  by_cases hk : k' = k
  · subst hk; simp [dictGet_insert_self]
  · rwa [dictGet_insert_ne _ _ _ _ hk]

/-! Lemmas about attributed time and burst sums. -/

theorem pidTime_append (pid : String) (g1 g2 : List Event) :
    pidTime pid (g1 ++ g2) = pidTime pid g1 + pidTime pid g2 := by
  induction g1 with
  | nil => simp [pidTime]
  | cons e g ih =>
    rw [List.cons_append, pidTime, pidTime, ih]
    ring

theorem burstSumP_perm (pid : String) {l1 l2 : List Process} (h : l1.Perm l2) :
    burstSumP pid l1 = burstSumP pid l2 :=
  (h.map _).sum_eq

theorem burstSumP_cons (pid : String) (p : Process) (l : List Process) :
    burstSumP pid (p :: l) = (if p.pid = pid then p.burst else 0) + burstSumP pid l := by
  simp [burstSumP]

theorem burstSumP_eq_zero (pid : String) (l : List Process)
    (h : pid ∉ l.map Process.pid) : burstSumP pid l = 0 := by
  induction l with
  | nil => rfl
  | cons p l ih =>
    rw [List.map_cons, List.mem_cons] at h
    push_neg at h
    rw [burstSumP_cons, if_neg (fun he => h.1 he.symm), ih h.2, zero_add]

theorem burstSumP_single (p : Process) (l : List Process)
    (hnd : (l.map Process.pid).Nodup) (hp : p ∈ l) : burstSumP p.pid l = p.burst := by
  induction l with
  | nil => cases hp
  | cons q l ih =>
    rw [List.map_cons, List.nodup_cons] at hnd
    rcases List.mem_cons.mp hp with rfl | hm
    · rw [burstSumP_cons, if_pos rfl, burstSumP_eq_zero _ _ hnd.1, add_zero]
    · have hq : ¬ q.pid = p.pid := by
        intro he; exact hnd.1 (he ▸ List.mem_map_of_mem Process.pid hm)
      rw [burstSumP_cons, if_neg hq, ih hnd.2 hm, zero_add]

/-! Queue permutation lemmas. -/

theorem queue_split_perm (t : Int) (pend ready : List Process) :
    (pend ++ ready).Perm
      ((ready ++ pend.takeWhile (arrivedBy t)) ++ pend.dropWhile (arrivedBy t)) := by
  have h : (pend ++ ready).Perm (ready ++ pend) := List.perm_append_comm
  have e : ready ++ pend =
      (ready ++ pend.takeWhile (arrivedBy t)) ++ pend.dropWhile (arrivedBy t) := by
    rw [List.append_assoc, List.takeWhile_append_dropWhile]
  rwa [e] at h

theorem queue_perm_of_pop (key : Process → Int) (t : Int) (pend ready : List Process)
    (p : Process) (rest : List Process)
    (hsort : sortByKey key (ready ++ pend.takeWhile (arrivedBy t)) = p :: rest) :
    (pend ++ ready).Perm (p :: (rest ++ pend.dropWhile (arrivedBy t))) := by
  have h1 : (ready ++ pend.takeWhile (arrivedBy t)).Perm (p :: rest) := by
    have h2 := sortByKey_perm key (ready ++ pend.takeWhile (arrivedBy t))
    rw [hsort] at h2
    exact h2.symm
  exact (queue_split_perm t pend ready).trans (h1.append_right _)

theorem queue_perm_of_pop_rr (t : Int) (pend ready : List Process)
    (p : Process) (rest : List Process)
    (hready : ready ++ pend.takeWhile (arrivedBy t) = p :: rest) :
    (pend ++ ready).Perm (p :: (rest ++ pend.dropWhile (arrivedBy t))) := by
  have h1 : (ready ++ pend.takeWhile (arrivedBy t)).Perm (p :: rest) := by
    rw [hready]
  exact (queue_split_perm t pend ready).trans (h1.append_right _)

theorem rr_dequeue_perm (e : Int) (pend1 rest : List Process) :
    (pend1.dropWhile (arrivedBy e) ++ (rest ++ pend1.takeWhile (arrivedBy e))).Perm
      (rest ++ pend1) := by
  have h : (pend1.dropWhile (arrivedBy e) ++ (rest ++ pend1.takeWhile (arrivedBy e))).Perm
      ((rest ++ pend1.takeWhile (arrivedBy e)) ++ pend1.dropWhile (arrivedBy e)) :=
    List.perm_append_comm
  have e2 : (rest ++ pend1.takeWhile (arrivedBy e)) ++ pend1.dropWhile (arrivedBy e) =
      rest ++ pend1 := by
    rw [List.append_assoc, List.takeWhile_append_dropWhile]
  rwa [e2] at h

theorem rr_requeue_perm (e : Int) (pend1 rest : List Process) (p : Process) :
    (pend1.dropWhile (arrivedBy e) ++ ((rest ++ pend1.takeWhile (arrivedBy e)) ++ [p])).Perm
      (p :: (rest ++ pend1)) := by
  have h0 : pend1.dropWhile (arrivedBy e) ++ ((rest ++ pend1.takeWhile (arrivedBy e)) ++ [p]) =
      (pend1.dropWhile (arrivedBy e) ++ (rest ++ pend1.takeWhile (arrivedBy e))) ++ [p] := by
    simp [List.append_assoc]
  rw [h0]
  have h1 : ((pend1.dropWhile (arrivedBy e) ++ (rest ++ pend1.takeWhile (arrivedBy e))) ++ [p]).Perm
      ([p] ++ (pend1.dropWhile (arrivedBy e) ++ (rest ++ pend1.takeWhile (arrivedBy e)))) :=
    List.perm_append_comm
  exact h1.trans ((rr_dequeue_perm e pend1 rest).append_left [p])

/-! Characterization of single loop iterations. -/

theorem spStep_done (key : Process → Int) (n : Nat) (s : SPState)
    (out : List Event × Results) (h : spStep key n s = .done out) :
    out = (s.gantt, s.results) ∧ ¬ s.results.length < n := by
  unfold spStep at h
  split at h
  · split at h
    · split at h <;> cases h
    · split at h <;> cases h
  · rename_i hge
    injection h with h1
    exact ⟨h1.symm, hge⟩

theorem spStep_next (key : Process → Int) (n : Nat) (s s' : SPState)
    (h : spStep key n s = .next s') :
    s.results.length < n ∧
    ((∃ p l, s.ready = [] ∧ s.pending.takeWhile (arrivedBy s.time) = [] ∧
        s.pending = p :: l ∧ s' = ⟨p :: l, [], p.arrival, s.gantt, s.results⟩) ∨
     (∃ p rest, sortByKey key (s.ready ++ s.pending.takeWhile (arrivedBy s.time)) = p :: rest ∧
        s' = ⟨s.pending.dropWhile (arrivedBy s.time), rest, s.time + p.burst,
          s.gantt ++ [⟨p.pid, s.time, s.time + p.burst⟩],
          dictInsert p.pid ⟨p.arrival, p.burst, s.time + p.burst⟩ s.results⟩)) := by
  unfold spStep at h
  split at h
  · rename_i hlt
    refine ⟨hlt, ?_⟩
    split at h
    · rename_i hnil
      rw [List.append_eq_nil] at hnil
      split at h
      · cases h
      · rename_i p l hd
        injection h with h1
        left
        refine ⟨p, l, hnil.1, hnil.2, ?_, h1.symm⟩
        have h2 : s.pending.takeWhile (arrivedBy s.time) ++
            s.pending.dropWhile (arrivedBy s.time) = s.pending := by
          rw [List.takeWhile_append_dropWhile]
        rw [hnil.2, List.nil_append, hd] at h2
        exact h2.symm
    · rename_i r rs hcons
      split at h
      · cases h
      · rename_i p rest hsort
        injection h with h1
        right
        rw [← hcons] at hsort
        exact ⟨p, rest, hsort, h1.symm⟩
  · cases h

theorem rrStep_done (quantum : Int) (n : Nat) (s : RRState)
    (out : List Event × Dict Int) (h : rrStep quantum n s = .done out) :
    out = (s.gantt, s.completed) ∧ ¬ s.completed.length < n := by
  unfold rrStep at h
  split at h
  · split at h
    · split at h <;> cases h
    · split at h
      · cases h
      · split at h <;> cases h
  · rename_i hge
    injection h with h1
    exact ⟨h1.symm, hge⟩

theorem rrStep_next (quantum : Int) (n : Nat) (s s' : RRState)
    (h : rrStep quantum n s = .next s') :
    s.completed.length < n ∧
    ((∃ p l, s.ready = [] ∧ s.pending.takeWhile (arrivedBy s.time) = [] ∧
        s.pending = p :: l ∧
        s' = ⟨p :: l, [], p.arrival, s.gantt, s.remaining, s.completed⟩) ∨
     (∃ p rest rem, s.ready ++ s.pending.takeWhile (arrivedBy s.time) = p :: rest ∧
        dictGet p.pid s.remaining = some rem ∧
        ((0 < rem - min quantum rem ∧
          s' = ⟨(s.pending.dropWhile (arrivedBy s.time)).dropWhile
                  (arrivedBy (s.time + min quantum rem)),
                (rest ++ (s.pending.dropWhile (arrivedBy s.time)).takeWhile
                  (arrivedBy (s.time + min quantum rem))) ++ [p],
                s.time + min quantum rem,
                s.gantt ++ [⟨p.pid, s.time, s.time + min quantum rem⟩],
                dictInsert p.pid (rem - min quantum rem) s.remaining, s.completed⟩) ∨
         (¬ 0 < rem - min quantum rem ∧
          s' = ⟨(s.pending.dropWhile (arrivedBy s.time)).dropWhile
                  (arrivedBy (s.time + min quantum rem)),
                rest ++ (s.pending.dropWhile (arrivedBy s.time)).takeWhile
                  (arrivedBy (s.time + min quantum rem)),
                s.time + min quantum rem,
                s.gantt ++ [⟨p.pid, s.time, s.time + min quantum rem⟩],
                dictInsert p.pid (rem - min quantum rem) s.remaining,
                dictInsert p.pid (s.time + min quantum rem) s.completed⟩)))) := by
  unfold rrStep at h
  split at h
  · rename_i hlt
    refine ⟨hlt, ?_⟩
    split at h
    · rename_i hnil
      rw [List.append_eq_nil] at hnil
      split at h
      · cases h
      · rename_i p l hd
        injection h with h1
        left
        refine ⟨p, l, hnil.1, hnil.2, ?_, h1.symm⟩
        have h2 : s.pending.takeWhile (arrivedBy s.time) ++
            s.pending.dropWhile (arrivedBy s.time) = s.pending := by
          rw [List.takeWhile_append_dropWhile]
        rw [hnil.2, List.nil_append, hd] at h2
        exact h2.symm
    · rename_i p rest hcons
      split at h
      · cases h
      · rename_i rem hrem
        right
        refine ⟨p, rest, rem, hcons, hrem, ?_⟩
        split at h
        · rename_i hpos
          injection h with h1
          exact Or.inl ⟨hpos, h1.symm⟩
        · rename_i hpos
          injection h with h1
          exact Or.inr ⟨hpos, h1.symm⟩
  · cases h

/-! The loops only append to the Gantt chart. -/

theorem loopSP_gantt_prefix (key : Process → Int) (n : Nat) :
    ∀ (fuel : Nat) (s : SPState) (g : List Event) (r : Results),
      loopSP key n fuel s = .ok (g, r) → ∃ tail, g = s.gantt ++ tail := by
  intro fuel
  induction fuel with
  | zero => intro s g r h; cases h
  | succ fuel ih =>
    intro s g r h
    rw [loopSP] at h
    cases hstep : spStep key n s with
    | done out =>
      rw [hstep] at h
      injection h with h1
      obtain ⟨h2, -⟩ := spStep_done key n s out hstep
      rw [h1] at h2
      injection h2 with hg hr
      exact ⟨[], by rw [hg, List.append_nil]⟩
    | fail e => rw [hstep] at h; cases h
    | next s1 =>
      rw [hstep] at h
      obtain ⟨tail, htail⟩ := ih s1 g r h
      obtain ⟨-, hcase⟩ := spStep_next key n s s1 hstep
      rcases hcase with ⟨p, l, -, -, -, hs1⟩ | ⟨p, rest, -, hs1⟩
      · exact ⟨tail, by rw [htail, hs1]⟩
      · refine ⟨⟨p.pid, s.time, s.time + p.burst⟩ :: tail, ?_⟩
        rw [htail, hs1]
        simp

theorem loopRR_gantt_prefix (quantum : Int) (n : Nat) :
    ∀ (fuel : Nat) (s : RRState) (g : List Event) (c : Dict Int),
      loopRR quantum n fuel s = .ok (g, c) → ∃ tail, g = s.gantt ++ tail := by
  intro fuel
  induction fuel with
  | zero => intro s g c h; cases h
  | succ fuel ih =>
    intro s g c h
    rw [loopRR] at h
    cases hstep : rrStep quantum n s with
    | done out =>
      rw [hstep] at h
      injection h with h1
      obtain ⟨h2, -⟩ := rrStep_done quantum n s out hstep
      rw [h1] at h2
      injection h2 with hg hc
      exact ⟨[], by rw [hg, List.append_nil]⟩
    | fail e => rw [hstep] at h; cases h
    | next s1 =>
      rw [hstep] at h
      obtain ⟨tail, htail⟩ := ih s1 g c h
      obtain ⟨-, hcase⟩ := rrStep_next quantum n s s1 hstep
      rcases hcase with ⟨p, l, -, -, -, hs1⟩ | ⟨p, rest, rem, -, -, hbr⟩
      · exact ⟨tail, by rw [htail, hs1]⟩
      · rcases hbr with ⟨-, hs1⟩ | ⟨-, hs1⟩ <;>
        · refine ⟨⟨p.pid, s.time, s.time + min quantum rem⟩ :: tail, ?_⟩
          rw [htail, hs1]
          simp

/-! Conservation of attributed time: FCFS. -/

theorem pidTime_single_event (pid : String) (hpid : pid ≠ "IDLE") (q : String) (a b : Int) :
    pidTime pid [⟨q, a, b⟩] = if q = pid then b - a else 0 := by
  by_cases hq : q = pid
  · subst hq
    simp [pidTime, dur, hpid]
  · simp [pidTime, hq]

theorem pidTime_idle_event (pid : String) (a b : Int) :
    pidTime pid [⟨"IDLE", a, b⟩] = 0 := by
  simp [pidTime]

theorem fcfsLoop_pidTime (pid : String) (hpid : pid ≠ "IDLE") :
    ∀ (l : List Process) (t : Int) (g : List Event) (r : Results),
      pidTime pid (fcfsLoop l t g r).1 = pidTime pid g + burstSumP pid l := by
  intro l
  induction l with
  | nil => intro t g r; simp [fcfsLoop, burstSumP]
  | cons p ps ih =>
    intro t g r
    rw [fcfsLoop, ih, burstSumP_cons]
    by_cases hlt : t < p.arrival
    · simp only [if_pos hlt]
      rw [pidTime_append, pidTime_append, pidTime_idle_event, pidTime_single_event pid hpid]
      ring
    · simp only [if_neg hlt]
      rw [pidTime_append, pidTime_single_event pid hpid]
      ring

/-! Conservation of attributed time: SJF and Priority. -/

theorem loopSP_pidTime (key : Process → Int) (n : Nat) (pid : String) (hpid : pid ≠ "IDLE") :
    ∀ (fuel : Nat) (s : SPState) (g : List Event) (r : Results),
      loopSP key n fuel s = .ok (g, r) → SPInv n s →
      pidTime pid g = pidTime pid s.gantt + burstSumP pid (s.pending ++ s.ready) := by
  intro fuel
  induction fuel with
  | zero => intro s g r h _; cases h
  | succ fuel ih =>
    intro s g r h hinv
    rw [loopSP] at h
    obtain ⟨hlen, hnd, hres⟩ := hinv
    cases hstep : spStep key n s with
    | fail e => rw [hstep] at h; cases h
    | done out =>
      rw [hstep] at h
      injection h with h1
      obtain ⟨h2, hge⟩ := spStep_done key n s out hstep
      rw [h1] at h2
      injection h2 with hg hr
      have hpend : s.pending = [] := List.eq_nil_of_length_eq_zero (by omega)
      have hready : s.ready = [] := List.eq_nil_of_length_eq_zero (by omega)
      rw [hg, hpend, hready]
      simp [burstSumP]
    | next s1 =>
      rw [hstep] at h
      obtain ⟨hlt, hcase⟩ := spStep_next key n s s1 hstep
      rcases hcase with ⟨p, l, hr0, htw, hpend, hs1⟩ | ⟨p, rest, hsort, hs1⟩
      · have hinv1 : SPInv n s1 := by
          rw [hs1]
          unfold SPInv
          refine ⟨?_, ?_, ?_⟩
          · simp only
            rw [hpend, hr0] at hlen
            simpa using hlen
          · simp only
            rw [hpend, hr0] at hnd
            simpa using hnd
          · intro x hx
            simp only at hx ⊢
            apply hres
            rw [hpend, hr0]
            simpa using hx
        have h3 := ih s1 g r h hinv1
        rw [hs1] at h3
        simp only at h3
        rw [h3, hpend, hr0]
      · have hperm : (s.pending ++ s.ready).Perm
            (p :: (rest ++ s.pending.dropWhile (arrivedBy s.time))) :=
          queue_perm_of_pop key s.time s.pending s.ready p rest hsort
        have hpmem : p ∈ s.pending ++ s.ready :=
          hperm.symm.subset (List.mem_cons_self _ _)
        have hfresh : dictGet p.pid s.results = none := hres p hpmem
        have hndnew : ((p :: (rest ++ s.pending.dropWhile (arrivedBy s.time))).map
            Process.pid).Nodup := (hperm.map Process.pid).nodup_iff.mp hnd
        rw [List.map_cons, List.nodup_cons] at hndnew
        have hinv1 : SPInv n s1 := by
          rw [hs1]
          refine ⟨?_, ?_, ?_⟩
          · have h4 := hperm.length_eq
            have h5 := dictInsert_length p.pid
              (⟨p.arrival, p.burst, s.time + p.burst⟩ : CompRec) s.results hfresh
            simp only [List.length_append, List.length_cons] at h4 ⊢
            simp only [h5]
            omega
          · have hp2 : ((s.pending.dropWhile (arrivedBy s.time)) ++ rest).Perm
                (rest ++ s.pending.dropWhile (arrivedBy s.time)) := List.perm_append_comm
            exact (hp2.map Process.pid).nodup_iff.mpr hndnew.2
          · intro x hx
            have hx2 : x ∈ rest ++ s.pending.dropWhile (arrivedBy s.time) :=
              (List.perm_append_comm.mem_iff).mp hx
            have hx3 : x ∈ s.pending ++ s.ready :=
              hperm.symm.subset (List.mem_cons_of_mem _ hx2)
            have hxp : x.pid ≠ p.pid := by
              intro he
              exact hndnew.1 (he ▸ List.mem_map_of_mem Process.pid hx2)
            rw [dictGet_insert_ne _ _ _ _ hxp]
            exact hres x hx3
        have h3 := ih s1 g r h hinv1
        rw [hs1] at h3
        simp only at h3
        rw [pidTime_append, pidTime_single_event pid hpid] at h3
        rw [h3, burstSumP_perm pid hperm, burstSumP_cons,
          burstSumP_perm pid (List.perm_append_comm :
            ((s.pending.dropWhile (arrivedBy s.time)) ++ rest).Perm _)]
        ring

theorem sjfLike_pidTime (key : Process → Int) (ps : List Process) (g : List Event)
    (r : Results) (hok : sjfLike key ps = .ok (g, r))
    (hnd : (ps.map Process.pid).Nodup) (p : Process) (hp : p ∈ ps)
    (hpid : p.pid ≠ "IDLE") : pidTime p.pid g = p.burst := by
  unfold sjfLike at hok
  cases hsort : sortByArrival ps with
  | nil => rw [hsort] at hok; cases hok
  | cons p0 ps' =>
    rw [hsort] at hok
    have hperm : (p0 :: ps').Perm ps := by
      have h0 := sortByArrival_perm ps
      rwa [hsort] at h0
    have hndq : ((p0 :: ps').map Process.pid).Nodup :=
      ((hperm.map Process.pid).nodup_iff).mpr hnd
    have hinv : SPInv ps.length ⟨p0 :: ps', [], p0.arrival, [], []⟩ := by
      unfold SPInv
      refine ⟨?_, ?_, ?_⟩
      · simpa using hperm.length_eq
      · simpa using hndq
      · intro x hx; rfl
    have h3 := loopSP_pidTime key ps.length p.pid hpid (spFuel ps) _ g r hok hinv
    simp only at h3
    rw [h3]
    have hpmem : p ∈ p0 :: ps' := hperm.mem_iff.mpr hp
    have hbs : burstSumP p.pid ((p0 :: ps') ++ []) = p.burst := by
      rw [List.append_nil]
      exact burstSumP_single p _ hndq hpmem
    rw [hbs]
    simp [pidTime]

/-! Conservation of attributed time: Round Robin. -/

theorem loopRR_pidTime (quantum : Int) (n : Nat) (pid : String) (hpid : pid ≠ "IDLE") :
    ∀ (fuel : Nat) (s : RRState) (g : List Event) (c : Dict Int) (rem : Int),
      loopRR quantum n fuel s = .ok (g, c) → RRInv n s →
      dictGet pid s.remaining = some rem →
      (((s.pending ++ s.ready).map Process.pid).count pid = 1 ∨
        (((s.pending ++ s.ready).map Process.pid).count pid = 0 ∧ rem = 0)) →
      pidTime pid g = pidTime pid s.gantt + rem := by
  intro fuel
  induction fuel with
  | zero => intro s g c rem h _ _ _; cases h
  | succ fuel ih =>
    intro s g c rem h hinv hrem hcnt
    rw [loopRR] at h
    obtain ⟨hlen, hnd, hcmp⟩ := hinv
    cases hstep : rrStep quantum n s with
    | fail e => rw [hstep] at h; cases h
    | done out =>
      rw [hstep] at h
      injection h with h1
      obtain ⟨h2, hge⟩ := rrStep_done quantum n s out hstep
      rw [h1] at h2
      injection h2 with hg hc
      have hpend : s.pending = [] := List.eq_nil_of_length_eq_zero (by omega)
      have hready : s.ready = [] := List.eq_nil_of_length_eq_zero (by omega)
      rcases hcnt with h1c | ⟨h0c, hrz⟩
      · exfalso
        rw [hpend, hready] at h1c
        simp at h1c
      · rw [hg, hrz, add_zero]
    | next s1 =>
      rw [hstep] at h
      obtain ⟨hlt, hcase⟩ := rrStep_next quantum n s s1 hstep
      rcases hcase with ⟨p, l, hr0, htw, hpend, hs1⟩ | ⟨p, rest, rem', hready, hrem', hbr⟩
      · have hinv1 : RRInv n s1 := by
          rw [hs1]; unfold RRInv
          refine ⟨?_, ?_, ?_⟩
          · simp only; rw [hpend, hr0] at hlen; simpa using hlen
          · simp only; rw [hpend, hr0] at hnd; simpa using hnd
          · intro x hx; simp only at hx ⊢
            apply hcmp; rw [hpend, hr0]; simpa using hx
        have hrem1 : dictGet pid s1.remaining = some rem := by rw [hs1]; exact hrem
        have hcnt1 : (((s1.pending ++ s1.ready).map Process.pid).count pid = 1 ∨
            (((s1.pending ++ s1.ready).map Process.pid).count pid = 0 ∧ rem = 0)) := by
          rw [hs1]
          simp only
          rw [hpend, hr0] at hcnt
          simpa using hcnt
        have h3 := ih s1 g c rem h hinv1 hrem1 hcnt1
        rw [hs1] at h3
        exact h3
      · have hqperm : (s.pending ++ s.ready).Perm
            (p :: (rest ++ s.pending.dropWhile (arrivedBy s.time))) :=
          queue_perm_of_pop_rr s.time s.pending s.ready p rest hready
        have hpmem : p ∈ s.pending ++ s.ready :=
          hqperm.symm.subset (List.mem_cons_self _ _)
        have hndq : ((p :: (rest ++ s.pending.dropWhile (arrivedBy s.time))).map
            Process.pid).Nodup := (hqperm.map Process.pid).nodup_iff.mp hnd
        rw [List.map_cons, List.nodup_cons] at hndq
        rcases hbr with ⟨hpos, hs1⟩ | ⟨hpos, hs1⟩
        · -- p unfinished: re-enqueued at the tail
          have hperm2 : (s1.pending ++ s1.ready).Perm
              (p :: (rest ++ s.pending.dropWhile (arrivedBy s.time))) := by
            rw [hs1]
            exact rr_requeue_perm _ _ rest p
          have hinv1 : RRInv n s1 := by
            unfold RRInv
            refine ⟨?_, ?_, ?_⟩
            · have h4 := hperm2.length_eq
              have h5 := hqperm.length_eq
              have hc1 : s1.completed = s.completed := by rw [hs1]
              rw [hc1]
              simp only [List.length_append, List.length_cons] at h4 h5
              omega
            · refine (hperm2.map Process.pid).nodup_iff.mpr ?_
              rw [List.map_cons, List.nodup_cons]
              exact hndq
            · intro x hx
              have hx2 : x ∈ p :: (rest ++ s.pending.dropWhile (arrivedBy s.time)) :=
                hperm2.subset hx
              have hx3 : x ∈ s.pending ++ s.ready := hqperm.symm.subset hx2
              have hc1 : s1.completed = s.completed := by rw [hs1]
              rw [hc1]
              exact hcmp x hx3
          by_cases hpp : p.pid = pid
          · have hreq : rem' = rem := by
              rw [hpp] at hrem'
              rw [hrem'] at hrem
              exact Option.some.inj hrem
            subst hreq
            have hrem1 : dictGet pid s1.remaining = some (rem' - min quantum rem') := by
              rw [hs1]
              simp only
              rw [← hpp]
              exact dictGet_insert_self _ _ _
            have hcnt1 : (((s1.pending ++ s1.ready).map Process.pid).count pid = 1 ∨
                (((s1.pending ++ s1.ready).map Process.pid).count pid = 0 ∧
                  rem' - min quantum rem' = 0)) := by
              left
              rw [(hperm2.map Process.pid).count_eq, ← (hqperm.map Process.pid).count_eq]
              rcases hcnt with h1c | ⟨h0c, -⟩
              · exact h1c
              · exfalso
                have : pid ∈ (s.pending ++ s.ready).map Process.pid := by
                  rw [← hpp]
                  exact List.mem_map_of_mem Process.pid hpmem
                rw [← List.count_pos_iff] at this
                omega
            have h3 := ih s1 g c _ h hinv1 hrem1 hcnt1
            have hg1 : s1.gantt = s.gantt ++ [⟨p.pid, s.time, s.time + min quantum rem'⟩] := by
              rw [hs1]
            rw [hg1, pidTime_append, pidTime_single_event pid hpid, if_pos hpp] at h3
            rw [h3]
            ring
          · have hrem1 : dictGet pid s1.remaining = some rem := by
              rw [hs1]
              simp only
              rw [dictGet_insert_ne _ _ _ _ (fun he => hpp he.symm)]
              exact hrem
            have hcntold : ((s.pending ++ s.ready).map Process.pid).count pid =
                ((rest ++ s.pending.dropWhile (arrivedBy s.time)).map Process.pid).count pid := by
              rw [(hqperm.map Process.pid).count_eq, List.map_cons]
              exact List.count_cons_of_ne (fun he => hpp he.symm) _
            have hcnt1 : (((s1.pending ++ s1.ready).map Process.pid).count pid = 1 ∨
                (((s1.pending ++ s1.ready).map Process.pid).count pid = 0 ∧ rem = 0)) := by
              rw [(hperm2.map Process.pid).count_eq, List.map_cons,
                List.count_cons_of_ne (fun he => hpp he.symm), ← hcntold]
              exact hcnt
            have h3 := ih s1 g c rem h hinv1 hrem1 hcnt1
            have hg1 : s1.gantt = s.gantt ++ [⟨p.pid, s.time, s.time + min quantum rem'⟩] := by
              rw [hs1]
            rw [hg1, pidTime_append, pidTime_single_event pid hpid, if_neg hpp] at h3
            rw [h3]
            ring
        · -- p finished: completed at the new clock
          have hperm2 : (s1.pending ++ s1.ready).Perm
              (rest ++ s.pending.dropWhile (arrivedBy s.time)) := by
            rw [hs1]
            exact rr_dequeue_perm _ _ rest
          have hfresh : dictGet p.pid s.completed = none := hcmp p hpmem
          have hinv1 : RRInv n s1 := by
            unfold RRInv
            refine ⟨?_, ?_, ?_⟩
            · have h4 := hperm2.length_eq
              have h5 := hqperm.length_eq
              have hc1 : s1.completed =
                  dictInsert p.pid (s.time + min quantum rem') s.completed := by rw [hs1]
              rw [hc1, dictInsert_length _ _ _ hfresh]
              simp only [List.length_append, List.length_cons] at h4 h5
              omega
            · exact (hperm2.map Process.pid).nodup_iff.mpr hndq.2
            · intro x hx
              have hx2 : x ∈ rest ++ s.pending.dropWhile (arrivedBy s.time) :=
                hperm2.subset hx
              have hx3 : x ∈ s.pending ++ s.ready :=
                hqperm.symm.subset (List.mem_cons_of_mem _ hx2)
              have hxp : x.pid ≠ p.pid := by
                intro he
                exact hndq.1 (he ▸ List.mem_map_of_mem Process.pid hx2)
              have hc1 : s1.completed =
                  dictInsert p.pid (s.time + min quantum rem') s.completed := by rw [hs1]
              rw [hc1, dictGet_insert_ne _ _ _ _ hxp]
              exact hcmp x hx3
          by_cases hpp : p.pid = pid
          · have hreq : rem' = rem := by
              rw [hpp] at hrem'
              rw [hrem'] at hrem
              exact Option.some.inj hrem
            subst hreq
            have hz : rem' - min quantum rem' = 0 := by
              have := min_le_right quantum rem'
              omega
            have hrem1 : dictGet pid s1.remaining = some (rem' - min quantum rem') := by
              rw [hs1]
              simp only
              rw [← hpp]
              exact dictGet_insert_self _ _ _
            have hcnt1 : (((s1.pending ++ s1.ready).map Process.pid).count pid = 1 ∨
                (((s1.pending ++ s1.ready).map Process.pid).count pid = 0 ∧
                  rem' - min quantum rem' = 0)) := by
              right
              refine ⟨?_, hz⟩
              rcases hcnt with h1c | ⟨h0c, -⟩
              · rw [(hqperm.map Process.pid).count_eq, List.map_cons, hpp,
                  List.count_cons_self] at h1c
                rw [(hperm2.map Process.pid).count_eq]
                omega
              · exfalso
                have : pid ∈ (s.pending ++ s.ready).map Process.pid := by
                  rw [← hpp]
                  exact List.mem_map_of_mem Process.pid hpmem
                rw [← List.count_pos_iff] at this
                omega
            have h3 := ih s1 g c _ h hinv1 hrem1 hcnt1
            have hg1 : s1.gantt = s.gantt ++ [⟨p.pid, s.time, s.time + min quantum rem'⟩] := by
              rw [hs1]
            rw [hg1, pidTime_append, pidTime_single_event pid hpid, if_pos hpp] at h3
            rw [h3, hz]
            have := min_le_right quantum rem'
            omega
          · have hrem1 : dictGet pid s1.remaining = some rem := by
              rw [hs1]
              simp only
              rw [dictGet_insert_ne _ _ _ _ (fun he => hpp he.symm)]
              exact hrem
            have hcntold : ((s.pending ++ s.ready).map Process.pid).count pid =
                ((rest ++ s.pending.dropWhile (arrivedBy s.time)).map Process.pid).count pid := by
              rw [(hqperm.map Process.pid).count_eq, List.map_cons]
              exact List.count_cons_of_ne (fun he => hpp he.symm) _
            have hcnt1 : (((s1.pending ++ s1.ready).map Process.pid).count pid = 1 ∨
                (((s1.pending ++ s1.ready).map Process.pid).count pid = 0 ∧ rem = 0)) := by
              rw [(hperm2.map Process.pid).count_eq, ← hcntold]
              simpa using hcnt
            have h3 := ih s1 g c rem h hinv1 hrem1 hcnt1
            have hg1 : s1.gantt = s.gantt ++ [⟨p.pid, s.time, s.time + min quantum rem'⟩] := by
              rw [hs1]
            rw [hg1, pidTime_append, pidTime_single_event pid hpid, if_neg hpp] at h3
            rw [h3]
            ring

theorem initRemaining_fold_notmem (l : List Process) (k : String) (hk : k ∉ l.map Process.pid) :
    ∀ d : Dict Int,
      dictGet k (l.foldl (fun d p => dictInsert p.pid p.burst d) d) = dictGet k d := by
  induction l with
  | nil => intro d; rfl
  | cons q l ih =>
    rw [List.map_cons, List.mem_cons] at hk
    push_neg at hk
    intro d
    rw [List.foldl_cons, ih hk.2, dictGet_insert_ne _ _ _ _ hk.1]

theorem initRemaining_get_fold (p : Process) :
    ∀ l : List Process, (l.map Process.pid).Nodup → p ∈ l →
      ∀ d : Dict Int,
        dictGet p.pid (l.foldl (fun d q => dictInsert q.pid q.burst d) d) = some p.burst := by
  intro l
  induction l with
  | nil => intro _ hp; cases hp
  | cons q l ih =>
    intro hnd hp d
    rw [List.map_cons, List.nodup_cons] at hnd
    rcases List.mem_cons.mp hp with rfl | hm
    · rw [List.foldl_cons, initRemaining_fold_notmem l p.pid hnd.1]
      exact dictGet_insert_self _ _ _
    · rw [List.foldl_cons]
      exact ih hnd.2 hm _

theorem initRemaining_get (l : List Process) (hnd : (l.map Process.pid).Nodup)
    (p : Process) (hp : p ∈ l) : dictGet p.pid (initRemaining l) = some p.burst :=
  initRemaining_get_fold p l hnd hp []

theorem round_robin_pidTime (ps : List Process) (q : Int) (g : List Event) (r : Results)
    (hok : round_robin ps q = .ok (g, r)) (hnd : (ps.map Process.pid).Nodup)
    (p : Process) (hp : p ∈ ps) (hpid : p.pid ≠ "IDLE") : pidTime p.pid g = p.burst := by
  unfold round_robin at hok
  cases hsort : sortByArrival ps with
  | nil => rw [hsort] at hok; cases hok
  | cons p0 ps' =>
    rw [hsort] at hok
    dsimp only at hok
    cases hloop : loopRR q ps.length (rrFuel ps)
        ⟨p0 :: ps', [], p0.arrival, [], initRemaining (p0 :: ps'), []⟩ with
    | error e => rw [hloop] at hok; cases hok
    | ok out =>
      obtain ⟨g0, c0⟩ := out
      rw [hloop] at hok
      dsimp only at hok
      cases hbr : buildResults c0 (p0 :: ps') [] with
      | error e => rw [hbr] at hok; cases hok
      | ok res =>
        rw [hbr] at hok
        dsimp only at hok
        injection hok with h1
        injection h1 with hg hr
        have hperm : (p0 :: ps').Perm ps := by
          have h0 := sortByArrival_perm ps
          rwa [hsort] at h0
        have hndq : ((p0 :: ps').map Process.pid).Nodup :=
          ((hperm.map Process.pid).nodup_iff).mpr hnd
        have hpmem : p ∈ p0 :: ps' := hperm.mem_iff.mpr hp
        have hinv : RRInv ps.length
            ⟨p0 :: ps', [], p0.arrival, [], initRemaining (p0 :: ps'), []⟩ := by
          unfold RRInv
          refine ⟨?_, ?_, ?_⟩
          · simpa using hperm.length_eq
          · simpa using hndq
          · intro x hx; rfl
        have hrem : dictGet p.pid (initRemaining (p0 :: ps')) = some p.burst :=
          initRemaining_get _ hndq p hpmem
        have hcnt : (((p0 :: ps') ++ []).map Process.pid).count p.pid = 1 := by
          rw [List.append_nil]
          exact List.count_eq_one_of_mem hndq (List.mem_map_of_mem Process.pid hpmem)
        have h3 := loopRR_pidTime q ps.length p.pid hpid (rrFuel ps) _ g0 c0 p.burst
          hloop hinv hrem (Or.inl hcnt)
        simp only at h3
        rw [← hg, h3]
        simp [pidTime]

/-- C1 (corrected): for every valid ProcessSet whose pids avoid the reserved
IDLE sentinel, under every policy (with a positive quantum for Round Robin)
the total duration the returned timeline attributes to a process's pid,
excluding IDLE events, equals that process's burst. -/
theorem c1_per_pid_time (algo : Policy) (ps : List Process) (q : Int)
    (out : List Event × Results) (p : Process)
    (hval : ValidPS ps) (hidle : ∀ x ∈ ps, x.pid ≠ "IDLE")
    (hq : algo = Policy.RoundRobin → 0 < q)
    (hok : simulate algo ps q = .ok out) (hp : p ∈ ps) :
    pidTime p.pid out.1 = p.burst := by
  obtain ⟨hnd, -⟩ := hval
  cases algo with
  | FCFS =>
    unfold simulate at hok
    injection hok with h1
    rw [← h1]
    unfold fcfs
    rw [fcfsLoop_pidTime p.pid (hidle p hp) (sortByArrival ps) 0 [] []]
    have hbs : burstSumP p.pid (sortByArrival ps) = p.burst := by
      rw [burstSumP_perm p.pid (sortByArrival_perm ps)]
      exact burstSumP_single p ps hnd hp
    rw [hbs]
    simp [pidTime]
  | SJF => exact sjfLike_pidTime _ ps out.1 out.2 hok hnd p hp (hidle p hp)
  | Priority => exact sjfLike_pidTime _ ps out.1 out.2 hok hnd p hp (hidle p hp)
  | RoundRobin => exact round_robin_pidTime ps q out.1 out.2 hok hnd p hp (hidle p hp)

/-- C1 counterexample: the one-process list [IDLE(0,5)] satisfies the claim's
stated validity conditions (unique pids, arrival >= 0, burst > 0), yet the sum
of the timeline durations attributed to its pid excluding IDLE events is 0,
not its burst 5: its single event carries the sentinel pid IDLE. -/
theorem c1_counterexample :
    ValidPS [⟨"IDLE", 0, 5, 1⟩] ∧
    simulate .FCFS [⟨"IDLE", 0, 5, 1⟩] 2 =
      Except.ok ([⟨"IDLE", 0, 5⟩], [("IDLE", ⟨0, 5, 5⟩)]) ∧
    pidTime "IDLE" [⟨"IDLE", 0, 5⟩] = 0 ∧ (0 : Int) ≠ 5 :=
  ⟨by decide, rfl, by decide, by decide⟩

/-- Witness for C1's corrected statement: FCFS on P1(0,4), P2(1,3) attributes
exactly 4 time units to P1. -/
theorem c1_witness :
    pidTime "P1" (fcfs [⟨"P1", 0, 4, 1⟩, ⟨"P2", 1, 3, 1⟩]).1 = 4 :=
  c1_per_pid_time .FCFS [⟨"P1", 0, 4, 1⟩, ⟨"P2", 1, 3, 1⟩] 2
    (fcfs [⟨"P1", 0, 4, 1⟩, ⟨"P2", 1, 3, 1⟩]) ⟨"P1", 0, 4, 1⟩
    (by decide) (by decide) (fun h => by cases h) rfl (by decide)

/-! Timeline chaining: FCFS is contiguous, the other engines never overlap. -/

theorem chain_snoc (R : Event → Event → Prop) (g : List Event) (ev : Event)
    (hc : List.Chain' R g) (hl : ∀ x, g.getLast? = some x → R x ev) :
    List.Chain' R (g ++ [ev]) := by
  rw [List.chain'_append]
  refine ⟨hc, List.chain'_singleton _, ?_⟩
  intro x hx y hy
  have hx' : g.getLast? = some x := hx
  have hy' : ev = y := by
    have h2 : ([ev].head? = some y) := hy
    simpa using h2
  rw [← hy']
  exact hl x hx'

theorem dictGet_insert_cases {α : Type} (k k' : String) (v' : α) (d : Dict α) (v : α)
    (h : dictGet k (dictInsert k' v' d) = some v) :
    (k = k' ∧ v = v') ∨ dictGet k d = some v := by
  by_cases he : k = k'
  · subst he
    rw [dictGet_insert_self] at h
    exact Or.inl ⟨rfl, (Option.some.inj h).symm⟩
  · rw [dictGet_insert_ne _ _ _ _ he] at h
    exact Or.inr h

theorem fcfsLoop_chain (l : List Process) :
    ∀ (t : Int) (g : List Event) (r : Results),
      List.Chain' evEQ g → (∀ x, g.getLast? = some x → x.«end» = t) →
      List.Chain' evEQ (fcfsLoop l t g r).1 := by
  induction l with
  | nil => intro t g r hc _; exact hc
  | cons p ps ih =>
    intro t g r hc hl
    rw [fcfsLoop]
    by_cases hlt : t < p.arrival
    · simp only [if_pos hlt]
      apply ih
      · apply chain_snoc
        · apply chain_snoc _ _ _ hc
          intro x hx
          exact hl x hx
        · intro x hx
          rw [List.getLast?_concat] at hx
          injection hx with hx1
          subst hx1
          rfl
      · intro x hx
        rw [List.getLast?_concat] at hx
        injection hx with hx1
        subst hx1
        rfl
    · simp only [if_neg hlt]
      apply ih
      · apply chain_snoc _ _ _ hc
        intro x hx
        exact hl x hx
      · intro x hx
        rw [List.getLast?_concat] at hx
        injection hx with hx1
        subst hx1
        rfl

theorem loopSP_chain (key : Process → Int) (n : Nat) :
    ∀ (fuel : Nat) (s : SPState) (g : List Event) (r : Results),
      loopSP key n fuel s = .ok (g, r) →
      (∀ x ∈ s.pending ++ s.ready, 0 ≤ x.burst) →
      List.Chain' evLE s.gantt → (∀ x ∈ s.gantt, x.«end» ≤ s.time) →
      List.Chain' evLE g := by
  intro fuel
  induction fuel with
  | zero => intro s g r h _ _ _; cases h
  | succ fuel ih =>
    intro s g r h hburst hc hends
    rw [loopSP] at h
    cases hstep : spStep key n s with
    | fail e => rw [hstep] at h; cases h
    | done out =>
      rw [hstep] at h
      injection h with h1
      obtain ⟨h2, -⟩ := spStep_done key n s out hstep
      rw [h1] at h2
      injection h2 with hg hr
      rwa [hg]
    | next s1 =>
      rw [hstep] at h
      obtain ⟨hlt, hcase⟩ := spStep_next key n s s1 hstep
      rcases hcase with ⟨p, l, hr0, htw, hpend, hs1⟩ | ⟨p, rest, hsort, hs1⟩
      · have harr : ¬ p.arrival ≤ s.time := by
          intro hle
          rw [hpend, List.takeWhile_cons, if_pos (by simp [arrivedBy, hle])] at htw
          cases htw
        refine ih s1 g r h ?_ ?_ ?_
        · rw [hs1]
          intro x hx
          apply hburst
          rw [hpend, hr0]
          simpa using hx
        · rw [hs1]
          exact hc
        · rw [hs1]
          intro x hx
          simp only at hx ⊢
          exact le_trans (hends x hx) (le_of_lt (lt_of_not_le harr))
      · have hqperm : (s.pending ++ s.ready).Perm
            (p :: (rest ++ s.pending.dropWhile (arrivedBy s.time))) :=
          queue_perm_of_pop key s.time s.pending s.ready p rest hsort
        have hpmem : p ∈ s.pending ++ s.ready :=
          hqperm.symm.subset (List.mem_cons_self _ _)
        have hpb : 0 ≤ p.burst := hburst p hpmem
        refine ih s1 g r h ?_ ?_ ?_
        · rw [hs1]
          intro x hx
          simp only at hx
          apply hburst
          have hx2 : x ∈ rest ++ s.pending.dropWhile (arrivedBy s.time) := by
            have h3 : x ∈ s.pending.dropWhile (arrivedBy s.time) ++ rest := hx
            exact (List.perm_append_comm).subset h3
          exact hqperm.symm.subset (List.mem_cons_of_mem _ hx2)
        · rw [hs1]
          simp only
          apply chain_snoc _ _ _ hc
          intro x hx
          exact hends x (List.mem_of_getLast?_eq_some hx)
        · rw [hs1]
          intro x hx
          simp only at hx ⊢
          rcases List.mem_append.mp hx with hx1 | hx2
          · exact le_trans (hends x hx1) (by omega)
          · have hx3 : x = ⟨p.pid, s.time, s.time + p.burst⟩ := by simpa using hx2
            rw [hx3]

theorem loopRR_chain (quantum : Int) (hq0 : 0 ≤ quantum) (n : Nat) :
    ∀ (fuel : Nat) (s : RRState) (g : List Event) (c : Dict Int),
      loopRR quantum n fuel s = .ok (g, c) →
      (∀ (k : String) (v : Int), dictGet k s.remaining = some v → 0 ≤ v) →
      List.Chain' evLE s.gantt → (∀ x ∈ s.gantt, x.«end» ≤ s.time) →
      List.Chain' evLE g := by
  intro fuel
  induction fuel with
  | zero => intro s g c h _ _ _; cases h
  | succ fuel ih =>
    intro s g c h hrnn hc hends
    rw [loopRR] at h
    cases hstep : rrStep quantum n s with
    | fail e => rw [hstep] at h; cases h
    | done out =>
      rw [hstep] at h
      injection h with h1
      obtain ⟨h2, -⟩ := rrStep_done quantum n s out hstep
      rw [h1] at h2
      injection h2 with hg hc2
      rwa [hg]
    | next s1 =>
      rw [hstep] at h
      obtain ⟨hlt, hcase⟩ := rrStep_next quantum n s s1 hstep
      rcases hcase with ⟨p, l, hr0, htw, hpend, hs1⟩ | ⟨p, rest, rem, hready, hrem, hbr⟩
      · have harr : ¬ p.arrival ≤ s.time := by
          intro hle
          rw [hpend, List.takeWhile_cons, if_pos (by simp [arrivedBy, hle])] at htw
          cases htw
        refine ih s1 g c h ?_ ?_ ?_
        · rw [hs1]; exact hrnn
        · rw [hs1]; exact hc
        · rw [hs1]
          intro x hx
          simp only at hx ⊢
          exact le_trans (hends x hx) (le_of_lt (lt_of_not_le harr))
      · have hrnn0 : 0 ≤ rem := hrnn p.pid rem hrem
        have hmq : 0 ≤ min quantum rem := le_min hq0 hrnn0
        have hball : ∀ (k : String) (v : Int),
            dictGet k (dictInsert p.pid (rem - min quantum rem) s.remaining) = some v →
            0 ≤ v := by
          intro k v hk
          rcases dictGet_insert_cases k p.pid _ s.remaining v hk with ⟨-, hv⟩ | hv
          · rw [hv]
            have := min_le_right quantum rem
            omega
          · exact hrnn k v hv
        have hchain1 : List.Chain' evLE
            (s.gantt ++ [⟨p.pid, s.time, s.time + min quantum rem⟩]) := by
          apply chain_snoc _ _ _ hc
          intro x hx
          exact hends x (List.mem_of_getLast?_eq_some hx)
        have hends1 : ∀ x ∈ s.gantt ++ [⟨p.pid, s.time, s.time + min quantum rem⟩],
            x.«end» ≤ s.time + min quantum rem := by
          intro x hx
          rcases List.mem_append.mp hx with hx1 | hx2
          · exact le_trans (hends x hx1) (by omega)
          · have hx3 : x = ⟨p.pid, s.time, s.time + min quantum rem⟩ := by simpa using hx2
            rw [hx3]
        rcases hbr with ⟨hpos, hs1⟩ | ⟨hpos, hs1⟩ <;>
          exact ih s1 g c h (by rw [hs1]; exact hball) (by rw [hs1]; exact hchain1)
            (by rw [hs1]; exact hends1)

theorem initRemaining_fold_values (l : List Process) :
    ∀ (d : Dict Int) (k : String) (v : Int),
      dictGet k (l.foldl (fun d p => dictInsert p.pid p.burst d) d) = some v →
      (∃ p1 ∈ l, v = p1.burst) ∨ dictGet k d = some v := by
  induction l with
  | nil => intro d k v h; exact Or.inr h
  | cons q l ih =>
    intro d k v h
    rw [List.foldl_cons] at h
    rcases ih _ k v h with ⟨p1, hp1, hv⟩ | h2
    · exact Or.inl ⟨p1, List.mem_cons_of_mem _ hp1, hv⟩
    · rcases dictGet_insert_cases k q.pid _ d v h2 with ⟨-, hv⟩ | h3
      · exact Or.inl ⟨q, List.mem_cons_self _ _, hv⟩
      · exact Or.inr h3

theorem chain_index (R : Event → Event → Prop) (g : List Event) (hc : List.Chain' R g) :
    ∀ (i : Nat) (h : i + 1 < g.length),
      R (g.get ⟨i, Nat.lt_of_succ_lt h⟩) (g.get ⟨i + 1, h⟩) := by
  intro i h
  exact List.chain'_iff_get.mp hc i (by omega)

theorem fcfs_chain (ps : List Process) : List.Chain' evEQ (fcfs ps).1 := by
  apply fcfsLoop_chain
  · simp
  · intro x hx; cases hx

theorem sjfLike_chain (key : Process → Int) (ps : List Process) (g : List Event)
    (r : Results) (hok : sjfLike key ps = .ok (g, r))
    (hb : ∀ p ∈ ps, 0 ≤ p.burst) : List.Chain' evLE g := by
  unfold sjfLike at hok
  cases hsort : sortByArrival ps with
  | nil => rw [hsort] at hok; cases hok
  | cons p0 ps' =>
    rw [hsort] at hok
    have hperm : (p0 :: ps').Perm ps := by
      have h0 := sortByArrival_perm ps
      rwa [hsort] at h0
    apply loopSP_chain key ps.length (spFuel ps) _ g r hok
    · intro x hx
      apply hb
      apply hperm.subset
      simpa using hx
    · simp
    · intro x hx; cases hx

theorem round_robin_chain (ps : List Process) (q : Int) (hq0 : 0 ≤ q) (g : List Event)
    (r : Results) (hok : round_robin ps q = .ok (g, r))
    (hb : ∀ p ∈ ps, 0 ≤ p.burst) : List.Chain' evLE g := by
  unfold round_robin at hok
  cases hsort : sortByArrival ps with
  | nil => rw [hsort] at hok; cases hok
  | cons p0 ps' =>
    rw [hsort] at hok
    dsimp only at hok
    cases hloop : loopRR q ps.length (rrFuel ps)
        ⟨p0 :: ps', [], p0.arrival, [], initRemaining (p0 :: ps'), []⟩ with
    | error e => rw [hloop] at hok; cases hok
    | ok out =>
      obtain ⟨g0, c0⟩ := out
      rw [hloop] at hok
      dsimp only at hok
      cases hbr : buildResults c0 (p0 :: ps') [] with
      | error e => rw [hbr] at hok; cases hok
      | ok res =>
        rw [hbr] at hok
        dsimp only at hok
        injection hok with h1
        injection h1 with hg hr
        have hperm : (p0 :: ps').Perm ps := by
          have h0 := sortByArrival_perm ps
          rwa [hsort] at h0
        rw [← hg]
        apply loopRR_chain q hq0 ps.length (rrFuel ps) _ g0 c0 hloop
        · intro k v hk
          rcases initRemaining_fold_values (p0 :: ps') [] k v hk with ⟨p1, hp1, hv⟩ | h2
          · rw [hv]
            exact hb p1 (hperm.subset hp1)
          · cases h2
        · simp
        · intro x hx; cases hx

/-- C2 (corrected): for every valid ProcessSet and every policy the returned
timeline is non-overlapping and ordered (each event ends no later than the
next starts); only FCFS timelines are additionally contiguous (each event
ends exactly when the next starts), because SJF, Priority and Round Robin
jump the clock over idle gaps without emitting an event. -/
theorem c2_timeline_order (algo : Policy) (ps : List Process) (q : Int)
    (out : List Event × Results) (hval : ValidPS ps)
    (hq : algo = Policy.RoundRobin → 0 < q)
    (hok : simulate algo ps q = .ok out) :
    (∀ (i : Nat) (h : i + 1 < out.1.length),
      (out.1.get ⟨i, Nat.lt_of_succ_lt h⟩).«end» ≤ (out.1.get ⟨i + 1, h⟩).start) ∧
    (algo = Policy.FCFS → ∀ (i : Nat) (h : i + 1 < out.1.length),
      (out.1.get ⟨i, Nat.lt_of_succ_lt h⟩).«end» = (out.1.get ⟨i + 1, h⟩).start) := by
  obtain ⟨hnd, hvp⟩ := hval
  have hb : ∀ p ∈ ps, 0 ≤ p.burst := fun p hp => le_of_lt (hvp p hp).2
  cases algo with
  | FCFS =>
    unfold simulate at hok
    injection hok with h1
    have hEQ : List.Chain' evEQ out.1 := by
      rw [← h1]; exact fcfs_chain ps
    refine ⟨?_, fun _ => chain_index evEQ out.1 hEQ⟩
    exact chain_index evLE out.1 (hEQ.imp (fun a b hab => le_of_eq hab))
  | SJF =>
    refine ⟨chain_index evLE out.1 (sjfLike_chain _ ps out.1 out.2 hok hb), fun heq => ?_⟩
    cases heq
  | Priority =>
    refine ⟨chain_index evLE out.1 (sjfLike_chain _ ps out.1 out.2 hok hb), fun heq => ?_⟩
    cases heq
  | RoundRobin =>
    refine ⟨chain_index evLE out.1
      (round_robin_chain ps q (le_of_lt (hq rfl)) out.1 out.2 hok hb), fun heq => ?_⟩
    cases heq

/-- C2 counterexample: the valid input P1(0,2), P2(5,3) under SJF yields the
timeline [P1:0-2, P2:5-8]: event 0 ends at 2 but event 1 starts at 5, so the
timeline is not contiguous (the idle gap [2,5) gets no event). -/
theorem c2_counterexample :
    ValidPS [⟨"P1", 0, 2, 1⟩, ⟨"P2", 5, 3, 1⟩] ∧
    sjf [⟨"P1", 0, 2, 1⟩, ⟨"P2", 5, 3, 1⟩] =
      Except.ok ([⟨"P1", 0, 2⟩, ⟨"P2", 5, 8⟩], [("P1", ⟨0, 2, 2⟩), ("P2", ⟨5, 3, 8⟩)]) ∧
    ¬ (∀ (i : Nat) (h : i + 1 < ([⟨"P1", 0, 2⟩, ⟨"P2", 5, 8⟩] : List Event).length),
        (([⟨"P1", 0, 2⟩, ⟨"P2", 5, 8⟩] : List Event).get ⟨i, Nat.lt_of_succ_lt h⟩).«end» =
        (([⟨"P1", 0, 2⟩, ⟨"P2", 5, 8⟩] : List Event).get ⟨i + 1, h⟩).start) := by
  refine ⟨by decide, rfl, ?_⟩
  intro hall
  exact absurd (hall 0 (by decide)) (by decide)

/-- Witness for C2's corrected statement: the FCFS timeline of P1(3,2) is
contiguous through its IDLE gap event. -/
theorem c2_witness :
    ((fcfs [⟨"P1", 3, 2, 1⟩]).1.get ⟨0, by decide⟩).«end» =
      ((fcfs [⟨"P1", 3, 2, 1⟩]).1.get ⟨1, by decide⟩).start :=
  (c2_timeline_order .FCFS [⟨"P1", 3, 2, 1⟩] 2 (fcfs [⟨"P1", 3, 2, 1⟩])
    (by decide) (fun hh => by cases hh) rfl).2 rfl 0 (by decide)

/-! First timeline event of each engine. -/

theorem fcfsLoop_gantt_prefix :
    ∀ (l : List Process) (t : Int) (g : List Event) (r : Results),
      ∃ tail, (fcfsLoop l t g r).1 = g ++ tail := by
  intro l
  induction l with
  | nil => intro t g r; exact ⟨[], (List.append_nil _).symm⟩
  | cons p ps ih =>
    intro t g r
    rw [fcfsLoop]
    by_cases hlt : t < p.arrival
    · simp only [if_pos hlt]
      obtain ⟨tail, htail⟩ := ih (p.arrival + p.burst)
        ((g ++ [⟨"IDLE", t, p.arrival⟩]) ++ [⟨p.pid, p.arrival, p.arrival + p.burst⟩])
        (dictInsert p.pid ⟨p.arrival, p.burst, p.arrival + p.burst⟩ r)
      refine ⟨⟨"IDLE", t, p.arrival⟩ :: ⟨p.pid, p.arrival, p.arrival + p.burst⟩ :: tail, ?_⟩
      rw [htail]
      simp
    · simp only [if_neg hlt]
      obtain ⟨tail, htail⟩ := ih (t + p.burst) (g ++ [⟨p.pid, t, t + p.burst⟩])
        (dictInsert p.pid ⟨p.arrival, p.burst, t + p.burst⟩ r)
      refine ⟨⟨p.pid, t, t + p.burst⟩ :: tail, ?_⟩
      rw [htail]
      simp

theorem fcfs_first (ps : List Process) (hne : ps ≠ []) :
    (fcfs ps).1 ≠ [] ∧ headStart (fcfs ps).1 = 0 := by
  unfold fcfs
  cases hsort : sortByArrival ps with
  | nil =>
    exfalso
    have h0 := sortByArrival_perm ps
    rw [hsort] at h0
    exact hne (h0.symm.eq_nil)
  | cons p0 ps' =>
    rw [fcfsLoop]
    by_cases hlt : (0 : Int) < p0.arrival
    · simp only [if_pos hlt]
      obtain ⟨tail, htail⟩ := fcfsLoop_gantt_prefix ps' (p0.arrival + p0.burst)
        (([] ++ [⟨"IDLE", 0, p0.arrival⟩]) ++ [⟨p0.pid, p0.arrival, p0.arrival + p0.burst⟩])
        (dictInsert p0.pid ⟨p0.arrival, p0.burst, p0.arrival + p0.burst⟩ [])
      rw [htail]
      simp [headStart]
    · simp only [if_neg hlt]
      obtain ⟨tail, htail⟩ := fcfsLoop_gantt_prefix ps' (0 + p0.burst)
        ([] ++ [⟨p0.pid, 0, 0 + p0.burst⟩])
        (dictInsert p0.pid ⟨p0.arrival, p0.burst, 0 + p0.burst⟩ [])
      rw [htail]
      simp [headStart]

theorem loopSP_first (key : Process → Int) (n : Nat) (fuel : Nat) (s : SPState)
    (g : List Event) (r : Results)
    (hok : loopSP key n (fuel + 1) s = .ok (g, r))
    (hlt : s.results.length < n)
    (hpend : ∃ p0 l, s.pending = p0 :: l ∧ p0.arrival ≤ s.time) :
    ∃ (pq : Process) (tail : List Event),
      g = s.gantt ++ ⟨pq.pid, s.time, s.time + pq.burst⟩ :: tail := by
  rw [loopSP] at hok
  cases hstep : spStep key n s with
  | fail e => rw [hstep] at hok; cases hok
  | done out =>
    obtain ⟨-, hge⟩ := spStep_done key n s out hstep
    exact absurd hlt hge
  | next s1 =>
    rw [hstep] at hok
    obtain ⟨-, hcase⟩ := spStep_next key n s s1 hstep
    rcases hcase with ⟨p, l, hr0, htw, hpend2, hs1⟩ | ⟨p, rest, hsort, hs1⟩
    · exfalso
      obtain ⟨p0, l0, hp0, harr⟩ := hpend
      rw [hp0, List.takeWhile_cons, if_pos (by simp [arrivedBy, harr])] at htw
      cases htw
    · obtain ⟨tail, htail⟩ := loopSP_gantt_prefix key n fuel s1 g r hok
      refine ⟨p, tail, ?_⟩
      rw [htail, hs1]
      simp

theorem loopRR_first (quantum : Int) (n : Nat) (fuel : Nat) (s : RRState)
    (g : List Event) (c : Dict Int)
    (hok : loopRR quantum n (fuel + 1) s = .ok (g, c))
    (hlt : s.completed.length < n)
    (hpend : ∃ p0 l, s.pending = p0 :: l ∧ p0.arrival ≤ s.time) :
    ∃ (pq : Process) (e : Int) (tail : List Event),
      g = s.gantt ++ ⟨pq.pid, s.time, e⟩ :: tail := by
  rw [loopRR] at hok
  cases hstep : rrStep quantum n s with
  | fail e => rw [hstep] at hok; cases hok
  | done out =>
    obtain ⟨-, hge⟩ := rrStep_done quantum n s out hstep
    exact absurd hlt hge
  | next s1 =>
    rw [hstep] at hok
    obtain ⟨-, hcase⟩ := rrStep_next quantum n s s1 hstep
    rcases hcase with ⟨p, l, hr0, htw, hpend2, hs1⟩ | ⟨p, rest, rem, hready, hrem, hbr⟩
    · exfalso
      obtain ⟨p0, l0, hp0, harr⟩ := hpend
      rw [hp0, List.takeWhile_cons, if_pos (by simp [arrivedBy, harr])] at htw
      cases htw
    · obtain ⟨tail, htail⟩ := loopRR_gantt_prefix quantum n fuel s1 g c hok
      rcases hbr with ⟨-, hs1⟩ | ⟨-, hs1⟩ <;>
      · refine ⟨p, s.time + min quantum rem, tail, ?_⟩
        rw [htail, hs1]
        simp

theorem sorted_head_min (ps : List Process) (p0 : Process) (ps' : List Process)
    (hsort : sortByArrival ps = p0 :: ps') :
    p0 ∈ ps ∧ ∀ p ∈ ps, p0.arrival ≤ p.arrival := by
  have hperm : (p0 :: ps').Perm ps := by
    have h0 := sortByArrival_perm ps
    rwa [hsort] at h0
  have hsorted := sortByArrival_sorted ps
  rw [hsort, List.sorted_cons] at hsorted
  refine ⟨hperm.subset (List.mem_cons_self _ _), ?_⟩
  intro p hp
  rcases List.mem_cons.mp (hperm.mem_iff.mpr hp) with rfl | hm
  · exact le_refl _
  · exact hsorted.1 p hm

/-- C3 (corrected): for non-empty valid input, SJF, Priority and Round Robin
emit a first event starting exactly at the minimum arrival time, but FCFS
initializes its clock to 0, so its first event always starts at 0 — an IDLE
event when the earliest arrival is positive. -/
theorem c3_first_event_start (algo : Policy) (ps : List Process) (q : Int)
    (out : List Event × Results) (hne : ps ≠ []) (_hval : ValidPS ps)
    (hq : algo = Policy.RoundRobin → 0 < q)
    (hok : simulate algo ps q = .ok out) :
    out.1 ≠ [] ∧
    (algo = Policy.FCFS → headStart out.1 = 0) ∧
    (algo ≠ Policy.FCFS → ∃ p0 ∈ ps, headStart out.1 = p0.arrival ∧
      ∀ p ∈ ps, p0.arrival ≤ p.arrival) := by
  have hn : 0 < ps.length := List.length_pos.mpr hne
  cases algo with
  | FCFS =>
    unfold simulate at hok
    injection hok with h1
    rw [← h1]
    obtain ⟨hne1, hh⟩ := fcfs_first ps hne
    exact ⟨hne1, fun _ => hh, fun hcon => absurd rfl hcon⟩
  | SJF =>
    unfold simulate sjf sjfLike at hok
    cases hsort : sortByArrival ps with
    | nil => rw [hsort] at hok; cases hok
    | cons p0 ps' =>
      rw [hsort] at hok
      unfold spFuel at hok
      obtain ⟨pq, tail, htail⟩ := loopSP_first _ ps.length (2 * ps.length) _ out.1 out.2
        hok (by simpa using hn) ⟨p0, ps', rfl, le_refl _⟩
      obtain ⟨hp0mem, hp0min⟩ := sorted_head_min ps p0 ps' hsort
      simp only [List.nil_append] at htail
      refine ⟨by rw [htail]; simp, fun hcon => Policy.noConfusion hcon, fun _ => ?_⟩
      exact ⟨p0, hp0mem, by rw [htail]; rfl, hp0min⟩
  | Priority =>
    unfold simulate priority sjfLike at hok
    cases hsort : sortByArrival ps with
    | nil => rw [hsort] at hok; cases hok
    | cons p0 ps' =>
      rw [hsort] at hok
      unfold spFuel at hok
      obtain ⟨pq, tail, htail⟩ := loopSP_first _ ps.length (2 * ps.length) _ out.1 out.2
        hok (by simpa using hn) ⟨p0, ps', rfl, le_refl _⟩
      obtain ⟨hp0mem, hp0min⟩ := sorted_head_min ps p0 ps' hsort
      simp only [List.nil_append] at htail
      refine ⟨by rw [htail]; simp, fun hcon => Policy.noConfusion hcon, fun _ => ?_⟩
      exact ⟨p0, hp0mem, by rw [htail]; rfl, hp0min⟩
  | RoundRobin =>
    unfold simulate round_robin at hok
    cases hsort : sortByArrival ps with
    | nil => rw [hsort] at hok; cases hok
    | cons p0 ps' =>
      rw [hsort] at hok
      dsimp only at hok
      cases hloop : loopRR q ps.length (rrFuel ps)
          ⟨p0 :: ps', [], p0.arrival, [], initRemaining (p0 :: ps'), []⟩ with
      | error e => rw [hloop] at hok; cases hok
      | ok out0 =>
        obtain ⟨g0, c0⟩ := out0
        rw [hloop] at hok
        dsimp only at hok
        cases hbr : buildResults c0 (p0 :: ps') [] with
        | error e => rw [hbr] at hok; cases hok
        | ok res =>
          rw [hbr] at hok
          dsimp only at hok
          injection hok with h1
          cases hfuel : rrFuel ps with
          | zero =>
            rw [hfuel] at hloop
            cases hloop
          | succ k =>
            rw [hfuel] at hloop
            obtain ⟨pq, e, tail, htail⟩ := loopRR_first q ps.length k _ g0 c0
              hloop (by simpa using hn) ⟨p0, ps', rfl, le_refl _⟩
            obtain ⟨hp0mem, hp0min⟩ := sorted_head_min ps p0 ps' hsort
            simp only [List.nil_append] at htail
            rw [← h1]
            refine ⟨?_, fun hcon => Policy.noConfusion hcon, fun _ => ?_⟩
            · show g0 ≠ []
              rw [htail]; simp
            · refine ⟨p0, hp0mem, ?_, hp0min⟩
              show headStart g0 = p0.arrival
              rw [htail]; rfl

/-- C3 counterexample: FCFS on the valid non-empty input [P1(3,2)] returns
the timeline [IDLE:0-3, P1:3-5]; its first event starts at 0, not at the
minimum arrival time 3, because the FCFS clock is initialized to 0. -/
theorem c3_counterexample :
    ValidPS [⟨"P1", 3, 2, 1⟩] ∧ ([⟨"P1", 3, 2, 1⟩] : List Process) ≠ [] ∧
    simulate .FCFS [⟨"P1", 3, 2, 1⟩] 2 =
      Except.ok ([⟨"IDLE", 0, 3⟩, ⟨"P1", 3, 5⟩], [("P1", ⟨3, 2, 5⟩)]) ∧
    headStart [⟨"IDLE", 0, 3⟩, ⟨"P1", 3, 5⟩] = 0 ∧ (0 : Int) ≠ 3 :=
  ⟨by decide, by decide, rfl, rfl, by decide⟩

/-- Witness for C3's corrected statement: SJF on P1(3,2) emits its first
event at the earliest arrival 3, and FCFS on the same input starts at 0. -/
theorem c3_witness :
    (sjf [⟨"P1", 3, 2, 1⟩] = Except.ok ([⟨"P1", 3, 5⟩], [("P1", ⟨3, 2, 5⟩)])) ∧
    headStart [⟨"P1", 3, 5⟩] = 3 := by
  have h := c3_first_event_start .SJF [⟨"P1", 3, 2, 1⟩] 2
    ([⟨"P1", 3, 5⟩], [("P1", ⟨3, 2, 5⟩)]) (by decide) (by decide)
    (fun hh => by cases hh) rfl
  obtain ⟨-, -, hmin⟩ := h
  obtain ⟨p0, hp0, hstart, -⟩ := hmin (fun hh => by cases hh)
  refine ⟨rfl, ?_⟩
  have hp0' : p0 = ⟨"P1", 3, 2, 1⟩ := by simpa using hp0
  rw [hstart, hp0']

/-! Introduction forms of the loop iterations, used by the termination proofs. -/

theorem spStep_done_eq (key : Process → Int) (n : Nat) (s : SPState)
    (hge : ¬ s.results.length < n) : spStep key n s = .done (s.gantt, s.results) := by
  unfold spStep
  rw [if_neg hge]

theorem spStep_idle_eq (key : Process → Int) (n : Nat) (s : SPState) (p : Process)
    (l : List Process) (hlt : s.results.length < n)
    (hnil : s.ready ++ s.pending.takeWhile (arrivedBy s.time) = [])
    (hdrop : s.pending.dropWhile (arrivedBy s.time) = p :: l) :
    spStep key n s = .next ⟨p :: l, [], p.arrival, s.gantt, s.results⟩ := by
  simp only [spStep, if_pos hlt, hnil, hdrop]

theorem spStep_pop_eq (key : Process → Int) (n : Nat) (s : SPState) (r0 : Process)
    (rs : List Process) (q : Process) (qrest : List Process)
    (hlt : s.results.length < n)
    (hready : s.ready ++ s.pending.takeWhile (arrivedBy s.time) = r0 :: rs)
    (hsort : sortByKey key (r0 :: rs) = q :: qrest) :
    spStep key n s = .next ⟨s.pending.dropWhile (arrivedBy s.time), qrest, s.time + q.burst,
      s.gantt ++ [⟨q.pid, s.time, s.time + q.burst⟩],
      dictInsert q.pid ⟨q.arrival, q.burst, s.time + q.burst⟩ s.results⟩ := by
  simp only [spStep, if_pos hlt, hready, hsort]

theorem rrStep_done_eq (quantum : Int) (n : Nat) (s : RRState)
    (hge : ¬ s.completed.length < n) : rrStep quantum n s = .done (s.gantt, s.completed) := by
  unfold rrStep
  rw [if_neg hge]

theorem rrStep_idle_eq (quantum : Int) (n : Nat) (s : RRState) (p : Process)
    (l : List Process) (hlt : s.completed.length < n)
    (hnil : s.ready ++ s.pending.takeWhile (arrivedBy s.time) = [])
    (hdrop : s.pending.dropWhile (arrivedBy s.time) = p :: l) :
    rrStep quantum n s = .next ⟨p :: l, [], p.arrival, s.gantt, s.remaining, s.completed⟩ := by
  simp only [rrStep, if_pos hlt, hnil, hdrop]

theorem rrStep_slice_unfin_eq (quantum : Int) (n : Nat) (s : RRState) (p : Process)
    (rest : List Process) (rem : Int) (hlt : s.completed.length < n)
    (hready : s.ready ++ s.pending.takeWhile (arrivedBy s.time) = p :: rest)
    (hrem : dictGet p.pid s.remaining = some rem)
    (hpos : 0 < rem - min quantum rem) :
    rrStep quantum n s = .next
      ⟨(s.pending.dropWhile (arrivedBy s.time)).dropWhile
          (arrivedBy (s.time + min quantum rem)),
        (rest ++ (s.pending.dropWhile (arrivedBy s.time)).takeWhile
          (arrivedBy (s.time + min quantum rem))) ++ [p],
        s.time + min quantum rem,
        s.gantt ++ [⟨p.pid, s.time, s.time + min quantum rem⟩],
        dictInsert p.pid (rem - min quantum rem) s.remaining, s.completed⟩ := by
  simp only [rrStep, if_pos hlt, hready, hrem, if_pos hpos]

theorem rrStep_slice_fin_eq (quantum : Int) (n : Nat) (s : RRState) (p : Process)
    (rest : List Process) (rem : Int) (hlt : s.completed.length < n)
    (hready : s.ready ++ s.pending.takeWhile (arrivedBy s.time) = p :: rest)
    (hrem : dictGet p.pid s.remaining = some rem)
    (hpos : ¬ 0 < rem - min quantum rem) :
    rrStep quantum n s = .next
      ⟨(s.pending.dropWhile (arrivedBy s.time)).dropWhile
          (arrivedBy (s.time + min quantum rem)),
        rest ++ (s.pending.dropWhile (arrivedBy s.time)).takeWhile
          (arrivedBy (s.time + min quantum rem)),
        s.time + min quantum rem,
        s.gantt ++ [⟨p.pid, s.time, s.time + min quantum rem⟩],
        dictInsert p.pid (rem - min quantum rem) s.remaining,
        dictInsert p.pid (s.time + min quantum rem) s.completed⟩ := by
  simp only [rrStep, if_pos hlt, hready, hrem, if_neg hpos]

/-- The SJF/Priority pop step: preservation of the bookkeeping invariant,
exact decrease of the queue length, and monotonicity of the set of pids that
either hold a completion record or are still queued. -/
theorem spPop_all (key : Process → Int) (n : Nat) (s : SPState) (q : Process)
    (qrest : List Process)
    (hsort : sortByKey key (s.ready ++ s.pending.takeWhile (arrivedBy s.time)) = q :: qrest)
    (hinv : SPInv n s) (_hlt : s.results.length < n) :
    SPInv n ⟨s.pending.dropWhile (arrivedBy s.time), qrest, s.time + q.burst,
        s.gantt ++ [⟨q.pid, s.time, s.time + q.burst⟩],
        dictInsert q.pid ⟨q.arrival, q.burst, s.time + q.burst⟩ s.results⟩ ∧
    (s.pending.dropWhile (arrivedBy s.time)).length + qrest.length + 1 =
      s.pending.length + s.ready.length ∧
    ∀ pid : String, ((dictGet pid s.results).isSome ∨
        pid ∈ (s.pending ++ s.ready).map Process.pid) →
      ((dictGet pid (dictInsert q.pid ⟨q.arrival, q.burst, s.time + q.burst⟩
          s.results)).isSome ∨
        pid ∈ ((s.pending.dropWhile (arrivedBy s.time)) ++ qrest).map Process.pid) := by
  obtain ⟨hlen, hnd, hres⟩ := hinv
  have hqperm : (s.pending ++ s.ready).Perm
      (q :: (qrest ++ s.pending.dropWhile (arrivedBy s.time))) :=
    queue_perm_of_pop key s.time s.pending s.ready q qrest hsort
  have hqmem : q ∈ s.pending ++ s.ready := hqperm.symm.subset (List.mem_cons_self _ _)
  have hfresh : dictGet q.pid s.results = none := hres q hqmem
  have hndnew : ((q :: (qrest ++ s.pending.dropWhile (arrivedBy s.time))).map
      Process.pid).Nodup := (hqperm.map Process.pid).nodup_iff.mp hnd
  rw [List.map_cons, List.nodup_cons] at hndnew
  have hlen1 : (s.pending.dropWhile (arrivedBy s.time)).length + qrest.length + 1 =
      s.pending.length + s.ready.length := by
    have h4 := hqperm.length_eq
    simp only [List.length_append, List.length_cons] at h4
    omega
  refine ⟨⟨?_, ?_, ?_⟩, hlen1, ?_⟩
  · simp only
    rw [dictInsert_length _ _ _ hfresh]
    omega
  · simp only
    have hp2 : ((s.pending.dropWhile (arrivedBy s.time)) ++ qrest).Perm
        (qrest ++ s.pending.dropWhile (arrivedBy s.time)) := List.perm_append_comm
    exact (hp2.map Process.pid).nodup_iff.mpr hndnew.2
  · intro x hx
    simp only at hx ⊢
    have hx2 : x ∈ qrest ++ s.pending.dropWhile (arrivedBy s.time) :=
      (List.perm_append_comm).subset hx
    have hx3 : x ∈ s.pending ++ s.ready :=
      hqperm.symm.subset (List.mem_cons_of_mem _ hx2)
    have hxp : x.pid ≠ q.pid := by
      intro he
      exact hndnew.1 (he ▸ List.mem_map_of_mem Process.pid hx2)
    rw [dictGet_insert_ne _ _ _ _ hxp]
    exact hres x hx3
  · intro pid hpid
    rcases hpid with hpid | hpid
    · exact Or.inl (dictGet_insert_isSome _ _ _ _ hpid)
    · have hpid2 : pid ∈ (q :: (qrest ++ s.pending.dropWhile (arrivedBy s.time))).map
          Process.pid := (hqperm.map Process.pid).subset hpid
      rw [List.map_cons, List.mem_cons] at hpid2
      rcases hpid2 with rfl | hpid3
      · left
        rw [dictGet_insert_self]
        rfl
      · right
        have hp2 : (qrest ++ s.pending.dropWhile (arrivedBy s.time)).Perm
            ((s.pending.dropWhile (arrivedBy s.time)) ++ qrest) := List.perm_append_comm
        exact (hp2.map Process.pid).subset hpid3

theorem loopSP_terminates (key : Process → Int) (n : Nat) :
    ∀ (fuel : Nat) (s : SPState), SPInv n s →
      2 * (s.pending.length + s.ready.length) + 1 ≤ fuel →
      ∃ g r, loopSP key n fuel s = .ok (g, r) ∧
        ∀ pid : String, ((dictGet pid s.results).isSome ∨
          pid ∈ (s.pending ++ s.ready).map Process.pid) → (dictGet pid r).isSome := by
  intro fuel
  induction fuel using Nat.strong_induction_on with
  | _ fuel IH =>
    intro s hinv hbound
    obtain ⟨f, rfl⟩ : ∃ f, fuel = f + 1 := ⟨fuel - 1, by omega⟩
    by_cases hlt : s.results.length < n
    · cases hready2 : s.ready ++ s.pending.takeWhile (arrivedBy s.time) with
      | nil =>
        obtain ⟨hlen, hnd, hres⟩ := hinv
        obtain ⟨hr0, htw⟩ := List.append_eq_nil.mp hready2
        have hqpos : 0 < s.pending.length + s.ready.length := by omega
        obtain ⟨p, l, hpend⟩ : ∃ p l, s.pending = p :: l := by
          cases hp : s.pending with
          | nil =>
            exfalso
            rw [hp, hr0] at hqpos
            simp at hqpos
          | cons a as => exact ⟨a, as, rfl⟩
        have hdrop : s.pending.dropWhile (arrivedBy s.time) = p :: l := by
          have h2 : s.pending.takeWhile (arrivedBy s.time) ++
              s.pending.dropWhile (arrivedBy s.time) = s.pending := by
            rw [List.takeWhile_append_dropWhile]
          rw [htw, List.nil_append] at h2
          rw [h2, hpend]
        have hstep1 := spStep_idle_eq key n s p l hlt hready2 hdrop
        have htw2 : (p :: l).takeWhile (arrivedBy p.arrival) =
            p :: l.takeWhile (arrivedBy p.arrival) := by
          rw [List.takeWhile_cons, if_pos (by simp [arrivedBy])]
        have hready2' : ([] : List Process) ++ (p :: l).takeWhile (arrivedBy p.arrival) =
            p :: l.takeWhile (arrivedBy p.arrival) := by
          rw [List.nil_append, htw2]
        cases hsq : sortByKey key (p :: l.takeWhile (arrivedBy p.arrival)) with
        | nil =>
          exfalso
          have hp2 := sortByKey_perm key (p :: l.takeWhile (arrivedBy p.arrival))
          rw [hsq] at hp2
          simpa using hp2.length_eq
        | cons q2 rest2 =>
          have hstep2 := spStep_pop_eq key n ⟨p :: l, [], p.arrival, s.gantt, s.results⟩
            p (l.takeWhile (arrivedBy p.arrival)) q2 rest2 hlt hready2' hsq
          have hinv1 : SPInv n ⟨p :: l, [], p.arrival, s.gantt, s.results⟩ := by
            unfold SPInv
            refine ⟨?_, ?_, ?_⟩
            · simp only
              rw [hpend, hr0] at hlen
              simpa using hlen
            · simp only
              rw [hpend, hr0] at hnd
              simpa using hnd
            · intro x hx
              simp only at hx ⊢
              apply hres
              rw [hpend, hr0]
              simpa using hx
          obtain ⟨hinv2, hlen2, htrans2⟩ := spPop_all key n
            ⟨p :: l, [], p.arrival, s.gantt, s.results⟩ q2 rest2 (by exact hready2' ▸ hsq)
            hinv1 hlt
          obtain ⟨f2, rfl⟩ : ∃ f2, f = f2 + 1 := by
            rw [hpend] at hbound
            simp only [List.length_cons] at hbound
            exact ⟨f - 1, by omega⟩
          obtain ⟨g, r, hloopok, hkeys⟩ := IH f2 (by omega) _ hinv2 (by
            rw [hpend, hr0] at hbound
            simp only [List.length_cons, List.length_nil] at hbound hlen2 ⊢
            omega)
          refine ⟨g, r, ?_, ?_⟩
          · rw [loopSP, hstep1]
            dsimp only
            rw [loopSP, hstep2]
            dsimp only
            exact hloopok
          · intro pid hpid
            apply hkeys
            apply htrans2
            simp only
            rw [hpend, hr0] at hpid
            simpa using hpid
      | cons r0 rs =>
        cases hsq : sortByKey key (r0 :: rs) with
        | nil =>
          exfalso
          have hp2 := sortByKey_perm key (r0 :: rs)
          rw [hsq] at hp2
          simpa using hp2.length_eq
        | cons q2 rest2 =>
          have hstep1 := spStep_pop_eq key n s r0 rs q2 rest2 hlt hready2 hsq
          obtain ⟨hinv2, hlen2, htrans2⟩ := spPop_all key n s q2 rest2
            (by exact hready2 ▸ hsq) hinv hlt
          obtain ⟨g, r, hloopok, hkeys⟩ := IH f (by omega) _ hinv2 (by
            simp only [List.length_cons, List.length_nil] at hlen2 ⊢
            omega)
          refine ⟨g, r, ?_, ?_⟩
          · rw [loopSP, hstep1]
            dsimp only
            exact hloopok
          · intro pid hpid
            exact hkeys pid (htrans2 pid hpid)
    · refine ⟨s.gantt, s.results, ?_, ?_⟩
      · rw [loopSP, spStep_done_eq key n s hlt]
      · obtain ⟨hlen, hnd, hres⟩ := hinv
        have hpend : s.pending = [] := List.eq_nil_of_length_eq_zero (by omega)
        have hready : s.ready = [] := List.eq_nil_of_length_eq_zero (by omega)
        intro pid hpid
        rcases hpid with hpid | hpid
        · exact hpid
        · exfalso
          rw [hpend, hready] at hpid
          simp at hpid

/-! Round Robin termination: measure lemmas. -/

theorem remSum_nonneg (s : RRState) (hrr : RRRem s) : 0 ≤ remSum s := by
  unfold remSum
  apply List.sum_nonneg
  intro y hy
  obtain ⟨x, hx, hxy⟩ := List.mem_map.mp hy
  obtain ⟨r, hr, hr1⟩ := hrr x hx
  rw [← hxy, hr]
  simp
  omega

theorem remSum_pos (s : RRState) (hrr : RRRem s)
    (hne : s.pending ++ s.ready ≠ []) : 1 ≤ remSum s := by
  unfold remSum
  cases hq : s.pending ++ s.ready with
  | nil => exact absurd hq hne
  | cons x xs =>
    rw [List.map_cons, List.sum_cons]
    have hx : x ∈ s.pending ++ s.ready := by rw [hq]; exact List.mem_cons_self _ _
    obtain ⟨r, hr, hr1⟩ := hrr x hx
    have h2 : 0 ≤ (xs.map (fun x => (dictGet x.pid s.remaining).getD 0)).sum := by
      apply List.sum_nonneg
      intro y hy
      obtain ⟨z, hz, hzy⟩ := List.mem_map.mp hy
      have hz2 : z ∈ s.pending ++ s.ready := by
        rw [hq]; exact List.mem_cons_of_mem _ hz
      obtain ⟨r2, hr2, hr21⟩ := hrr z hz2
      rw [← hzy, hr2]
      simp
      omega
    rw [hr]
    simp
    omega

theorem rrSliceUnfin_all (quantum : Int) (n : Nat) (s : RRState) (p : Process)
    (rest : List Process) (rem : Int)
    (hready : s.ready ++ s.pending.takeWhile (arrivedBy s.time) = p :: rest)
    (hrem : dictGet p.pid s.remaining = some rem)
    (hpos : 0 < rem - min quantum rem)
    (hinv : RRInv n s) (hrr : RRRem s) :
    RRInv n ⟨(s.pending.dropWhile (arrivedBy s.time)).dropWhile
          (arrivedBy (s.time + min quantum rem)),
        (rest ++ (s.pending.dropWhile (arrivedBy s.time)).takeWhile
          (arrivedBy (s.time + min quantum rem))) ++ [p],
        s.time + min quantum rem,
        s.gantt ++ [⟨p.pid, s.time, s.time + min quantum rem⟩],
        dictInsert p.pid (rem - min quantum rem) s.remaining, s.completed⟩ ∧
    RRRem ⟨(s.pending.dropWhile (arrivedBy s.time)).dropWhile
          (arrivedBy (s.time + min quantum rem)),
        (rest ++ (s.pending.dropWhile (arrivedBy s.time)).takeWhile
          (arrivedBy (s.time + min quantum rem))) ++ [p],
        s.time + min quantum rem,
        s.gantt ++ [⟨p.pid, s.time, s.time + min quantum rem⟩],
        dictInsert p.pid (rem - min quantum rem) s.remaining, s.completed⟩ ∧
    remSum ⟨(s.pending.dropWhile (arrivedBy s.time)).dropWhile
          (arrivedBy (s.time + min quantum rem)),
        (rest ++ (s.pending.dropWhile (arrivedBy s.time)).takeWhile
          (arrivedBy (s.time + min quantum rem))) ++ [p],
        s.time + min quantum rem,
        s.gantt ++ [⟨p.pid, s.time, s.time + min quantum rem⟩],
        dictInsert p.pid (rem - min quantum rem) s.remaining, s.completed⟩ =
      remSum s - min quantum rem ∧
    ∀ pid : String, ((dictGet pid s.completed).isSome ∨
        pid ∈ (s.pending ++ s.ready).map Process.pid) →
      ((dictGet pid s.completed).isSome ∨
        pid ∈ (((s.pending.dropWhile (arrivedBy s.time)).dropWhile
            (arrivedBy (s.time + min quantum rem))) ++
          ((rest ++ (s.pending.dropWhile (arrivedBy s.time)).takeWhile
            (arrivedBy (s.time + min quantum rem))) ++ [p])).map Process.pid) := by
  obtain ⟨hlen, hnd, hcmp⟩ := hinv
  have hqperm : (s.pending ++ s.ready).Perm
      (p :: (rest ++ s.pending.dropWhile (arrivedBy s.time))) :=
    queue_perm_of_pop_rr s.time s.pending s.ready p rest hready
  have hpmem : p ∈ s.pending ++ s.ready := hqperm.symm.subset (List.mem_cons_self _ _)
  have hndq : ((p :: (rest ++ s.pending.dropWhile (arrivedBy s.time))).map
      Process.pid).Nodup := (hqperm.map Process.pid).nodup_iff.mp hnd
  rw [List.map_cons, List.nodup_cons] at hndq
  have hperm2 : ((((s.pending.dropWhile (arrivedBy s.time)).dropWhile
        (arrivedBy (s.time + min quantum rem))) ++
      ((rest ++ (s.pending.dropWhile (arrivedBy s.time)).takeWhile
        (arrivedBy (s.time + min quantum rem))) ++ [p]))).Perm
      (p :: (rest ++ s.pending.dropWhile (arrivedBy s.time))) :=
    rr_requeue_perm _ _ rest p
  have hYne : ∀ x ∈ rest ++ s.pending.dropWhile (arrivedBy s.time), x.pid ≠ p.pid := by
    intro x hx he
    exact hndq.1 (he ▸ List.mem_map_of_mem Process.pid hx)
  refine ⟨⟨?_, ?_, ?_⟩, ?_, ?_, ?_⟩
  · have h4 := hperm2.length_eq
    have h5 := hqperm.length_eq
    simp only [List.length_append, List.length_cons] at h4 h5 ⊢
    omega
  · refine (hperm2.map Process.pid).nodup_iff.mpr ?_
    rw [List.map_cons, List.nodup_cons]
    exact hndq
  · intro x hx
    have hx2 : x ∈ p :: (rest ++ s.pending.dropWhile (arrivedBy s.time)) :=
      hperm2.subset hx
    exact hcmp x (hqperm.symm.subset hx2)
  · intro x hx
    have hx2 : x ∈ p :: (rest ++ s.pending.dropWhile (arrivedBy s.time)) :=
      hperm2.subset hx
    rcases List.mem_cons.mp hx2 with rfl | hx3
    · refine ⟨rem - min quantum rem, ?_, hpos⟩
      simp only
      exact dictGet_insert_self _ _ _
    · obtain ⟨r, hr, hr1⟩ := hrr x (hqperm.symm.subset (List.mem_cons_of_mem _ hx3))
      refine ⟨r, ?_, hr1⟩
      simp only
      rw [dictGet_insert_ne _ _ _ _ (hYne x hx3)]
      exact hr
  · unfold remSum
    simp only
    rw [(hperm2.map _).sum_eq, ((hqperm).map _).sum_eq]
    rw [List.map_cons, List.sum_cons, List.map_cons, List.sum_cons]
    have hmap : (rest ++ s.pending.dropWhile (arrivedBy s.time)).map
        (fun x => (dictGet x.pid (dictInsert p.pid (rem - min quantum rem)
          s.remaining)).getD 0) =
        (rest ++ s.pending.dropWhile (arrivedBy s.time)).map
        (fun x => (dictGet x.pid s.remaining).getD 0) := by
      apply List.map_congr_left
      intro x hx
      rw [dictGet_insert_ne _ _ _ _ (hYne x hx)]
    rw [hmap, dictGet_insert_self, hrem]
    simp
    ring
  · intro pid hpid
    rcases hpid with hpid | hpid
    · exact Or.inl hpid
    · right
      have hpid2 : pid ∈ (p :: (rest ++ s.pending.dropWhile (arrivedBy s.time))).map
          Process.pid := (hqperm.map Process.pid).subset hpid
      exact (hperm2.map Process.pid).symm.subset hpid2

theorem rrSliceFin_all (quantum : Int) (n : Nat) (s : RRState) (p : Process)
    (rest : List Process) (rem : Int)
    (hready : s.ready ++ s.pending.takeWhile (arrivedBy s.time) = p :: rest)
    (hrem : dictGet p.pid s.remaining = some rem)
    (hpos : ¬ 0 < rem - min quantum rem)
    (hinv : RRInv n s) (hrr : RRRem s) :
    RRInv n ⟨(s.pending.dropWhile (arrivedBy s.time)).dropWhile
          (arrivedBy (s.time + min quantum rem)),
        rest ++ (s.pending.dropWhile (arrivedBy s.time)).takeWhile
          (arrivedBy (s.time + min quantum rem)),
        s.time + min quantum rem,
        s.gantt ++ [⟨p.pid, s.time, s.time + min quantum rem⟩],
        dictInsert p.pid (rem - min quantum rem) s.remaining,
        dictInsert p.pid (s.time + min quantum rem) s.completed⟩ ∧
    RRRem ⟨(s.pending.dropWhile (arrivedBy s.time)).dropWhile
          (arrivedBy (s.time + min quantum rem)),
        rest ++ (s.pending.dropWhile (arrivedBy s.time)).takeWhile
          (arrivedBy (s.time + min quantum rem)),
        s.time + min quantum rem,
        s.gantt ++ [⟨p.pid, s.time, s.time + min quantum rem⟩],
        dictInsert p.pid (rem - min quantum rem) s.remaining,
        dictInsert p.pid (s.time + min quantum rem) s.completed⟩ ∧
    remSum ⟨(s.pending.dropWhile (arrivedBy s.time)).dropWhile
          (arrivedBy (s.time + min quantum rem)),
        rest ++ (s.pending.dropWhile (arrivedBy s.time)).takeWhile
          (arrivedBy (s.time + min quantum rem)),
        s.time + min quantum rem,
        s.gantt ++ [⟨p.pid, s.time, s.time + min quantum rem⟩],
        dictInsert p.pid (rem - min quantum rem) s.remaining,
        dictInsert p.pid (s.time + min quantum rem) s.completed⟩ =
      remSum s - min quantum rem ∧
    ∀ pid : String, ((dictGet pid s.completed).isSome ∨
        pid ∈ (s.pending ++ s.ready).map Process.pid) →
      ((dictGet pid (dictInsert p.pid (s.time + min quantum rem)
          s.completed)).isSome ∨
        pid ∈ (((s.pending.dropWhile (arrivedBy s.time)).dropWhile
            (arrivedBy (s.time + min quantum rem))) ++
          (rest ++ (s.pending.dropWhile (arrivedBy s.time)).takeWhile
            (arrivedBy (s.time + min quantum rem)))).map Process.pid) := by
  obtain ⟨hlen, hnd, hcmp⟩ := hinv
  have hqperm : (s.pending ++ s.ready).Perm
      (p :: (rest ++ s.pending.dropWhile (arrivedBy s.time))) :=
    queue_perm_of_pop_rr s.time s.pending s.ready p rest hready
  have hpmem : p ∈ s.pending ++ s.ready := hqperm.symm.subset (List.mem_cons_self _ _)
  have hfresh : dictGet p.pid s.completed = none := hcmp p hpmem
  have hndq : ((p :: (rest ++ s.pending.dropWhile (arrivedBy s.time))).map
      Process.pid).Nodup := (hqperm.map Process.pid).nodup_iff.mp hnd
  rw [List.map_cons, List.nodup_cons] at hndq
  have hperm2 : ((((s.pending.dropWhile (arrivedBy s.time)).dropWhile
        (arrivedBy (s.time + min quantum rem))) ++
      (rest ++ (s.pending.dropWhile (arrivedBy s.time)).takeWhile
        (arrivedBy (s.time + min quantum rem))))).Perm
      (rest ++ s.pending.dropWhile (arrivedBy s.time)) :=
    rr_dequeue_perm _ _ rest
  have hYne : ∀ x ∈ rest ++ s.pending.dropWhile (arrivedBy s.time), x.pid ≠ p.pid := by
    intro x hx he
    exact hndq.1 (he ▸ List.mem_map_of_mem Process.pid hx)
  have hzero : rem - min quantum rem = 0 := by
    have := min_le_right quantum rem
    omega
  refine ⟨⟨?_, ?_, ?_⟩, ?_, ?_, ?_⟩
  · have h4 := hperm2.length_eq
    have h5 := hqperm.length_eq
    simp only [List.length_append, List.length_cons] at h4 h5 ⊢
    rw [dictInsert_length _ _ _ hfresh]
    omega
  · exact (hperm2.map Process.pid).nodup_iff.mpr hndq.2
  · intro x hx
    have hx2 : x ∈ rest ++ s.pending.dropWhile (arrivedBy s.time) := hperm2.subset hx
    simp only
    rw [dictGet_insert_ne _ _ _ _ (hYne x hx2)]
    exact hcmp x (hqperm.symm.subset (List.mem_cons_of_mem _ hx2))
  · intro x hx
    have hx2 : x ∈ rest ++ s.pending.dropWhile (arrivedBy s.time) := hperm2.subset hx
    obtain ⟨r, hr, hr1⟩ := hrr x (hqperm.symm.subset (List.mem_cons_of_mem _ hx2))
    refine ⟨r, ?_, hr1⟩
    simp only
    rw [dictGet_insert_ne _ _ _ _ (hYne x hx2)]
    exact hr
  · unfold remSum
    simp only
    rw [(hperm2.map _).sum_eq, ((hqperm).map _).sum_eq]
    rw [List.map_cons, List.sum_cons]
    have hmap : (rest ++ s.pending.dropWhile (arrivedBy s.time)).map
        (fun x => (dictGet x.pid (dictInsert p.pid (rem - min quantum rem)
          s.remaining)).getD 0) =
        (rest ++ s.pending.dropWhile (arrivedBy s.time)).map
        (fun x => (dictGet x.pid s.remaining).getD 0) := by
      apply List.map_congr_left
      intro x hx
      rw [dictGet_insert_ne _ _ _ _ (hYne x hx)]
    rw [hmap, hrem]
    simp
    omega
  · intro pid hpid
    rcases hpid with hpid | hpid
    · exact Or.inl (dictGet_insert_isSome _ _ _ _ hpid)
    · have hpid2 : pid ∈ (p :: (rest ++ s.pending.dropWhile (arrivedBy s.time))).map
          Process.pid := (hqperm.map Process.pid).subset hpid
      rw [List.map_cons, List.mem_cons] at hpid2
      rcases hpid2 with rfl | hpid3
      · left
        rw [dictGet_insert_self]
        rfl
      · exact Or.inr ((hperm2.map Process.pid).symm.subset hpid3)

theorem loopRR_terminates (quantum : Int) (hq1 : 0 < quantum) (n : Nat) :
    ∀ (fuel : Nat) (s : RRState), RRInv n s → RRRem s →
      2 * remSum s + 1 ≤ (fuel : Int) →
      ∃ g c, loopRR quantum n fuel s = .ok (g, c) ∧
        ∀ pid : String, ((dictGet pid s.completed).isSome ∨
          pid ∈ (s.pending ++ s.ready).map Process.pid) → (dictGet pid c).isSome := by
  intro fuel
  induction fuel using Nat.strong_induction_on with
  | _ fuel IH =>
    intro s hinv hrr hbound
    have hW0 : 0 ≤ remSum s := remSum_nonneg s hrr
    obtain ⟨f, rfl⟩ : ∃ f, fuel = f + 1 := ⟨fuel - 1, by omega⟩
    by_cases hlt : s.completed.length < n
    · cases hready2 : s.ready ++ s.pending.takeWhile (arrivedBy s.time) with
      | nil =>
        obtain ⟨hlen, hnd, hcmp⟩ := hinv
        obtain ⟨hr0, htw⟩ := List.append_eq_nil.mp hready2
        have hqpos : 0 < s.pending.length + s.ready.length := by omega
        obtain ⟨p, l, hpend⟩ : ∃ p l, s.pending = p :: l := by
          cases hp : s.pending with
          | nil =>
            exfalso
            rw [hp, hr0] at hqpos
            simp at hqpos
          | cons a as => exact ⟨a, as, rfl⟩
        have hdrop : s.pending.dropWhile (arrivedBy s.time) = p :: l := by
          have h2 : s.pending.takeWhile (arrivedBy s.time) ++
              s.pending.dropWhile (arrivedBy s.time) = s.pending := by
            rw [List.takeWhile_append_dropWhile]
          rw [htw, List.nil_append] at h2
          rw [h2, hpend]
        have hstep1 := rrStep_idle_eq quantum n s p l hlt hready2 hdrop
        have htw2 : (p :: l).takeWhile (arrivedBy p.arrival) =
            p :: l.takeWhile (arrivedBy p.arrival) := by
          rw [List.takeWhile_cons, if_pos (by simp [arrivedBy])]
        have hready2' : ([] : List Process) ++ (p :: l).takeWhile (arrivedBy p.arrival) =
            p :: l.takeWhile (arrivedBy p.arrival) := by
          rw [List.nil_append, htw2]
        have hpQ : p ∈ s.pending ++ s.ready := by
          rw [hpend]
          exact List.mem_append_left _ (List.mem_cons_self _ _)
        obtain ⟨rem, hrem, hrem1⟩ := hrr p hpQ
        have hinv1 : RRInv n ⟨p :: l, [], p.arrival, s.gantt, s.remaining, s.completed⟩ := by
          unfold RRInv
          refine ⟨?_, ?_, ?_⟩
          · simp only
            rw [hpend, hr0] at hlen
            simpa using hlen
          · simp only
            rw [hpend, hr0] at hnd
            simpa using hnd
          · intro x hx
            simp only at hx ⊢
            apply hcmp
            rw [hpend, hr0]
            simpa using hx
        have hrr1 : RRRem ⟨p :: l, [], p.arrival, s.gantt, s.remaining, s.completed⟩ := by
          intro x hx
          apply hrr
          rw [hpend, hr0]
          simpa using hx
        have hWs1 : remSum ⟨p :: l, [], p.arrival, s.gantt, s.remaining, s.completed⟩ =
            remSum s := by
          unfold remSum
          rw [hpend, hr0]
        have hmq1 : 1 ≤ min quantum rem := le_min hq1 hrem1
        have hW1 : 1 ≤ remSum s := remSum_pos s hrr (by rw [hpend, hr0]; simp)
        obtain ⟨f2, rfl⟩ : ∃ f2, f = f2 + 1 := by
          refine ⟨f - 1, ?_⟩
          have : (2 : Int) * remSum s + 1 ≤ (f : Int) + 1 := by
            push_cast at hbound ⊢
            omega
          omega
        by_cases hpos : 0 < rem - min quantum rem
        · have hstep2 := rrStep_slice_unfin_eq quantum n
            ⟨p :: l, [], p.arrival, s.gantt, s.remaining, s.completed⟩ p
            (l.takeWhile (arrivedBy p.arrival)) rem hlt hready2' hrem hpos
          obtain ⟨hinv2, hrr2, hW2, htrans2⟩ := rrSliceUnfin_all quantum n
            ⟨p :: l, [], p.arrival, s.gantt, s.remaining, s.completed⟩ p
            (l.takeWhile (arrivedBy p.arrival)) rem hready2' hrem hpos hinv1 hrr1
          obtain ⟨g, c, hloopok, hkeys⟩ := IH f2 (by omega) _ hinv2 hrr2 (by
            rw [hW2, hWs1]
            push_cast at hbound
            omega)
          refine ⟨g, c, ?_, ?_⟩
          · rw [loopRR, hstep1]
            dsimp only
            rw [loopRR, hstep2]
            dsimp only
            exact hloopok
          · intro pid hpid
            apply hkeys
            apply htrans2
            simp only
            rw [hpend, hr0] at hpid
            simpa using hpid
        · have hstep2 := rrStep_slice_fin_eq quantum n
            ⟨p :: l, [], p.arrival, s.gantt, s.remaining, s.completed⟩ p
            (l.takeWhile (arrivedBy p.arrival)) rem hlt hready2' hrem hpos
          obtain ⟨hinv2, hrr2, hW2, htrans2⟩ := rrSliceFin_all quantum n
            ⟨p :: l, [], p.arrival, s.gantt, s.remaining, s.completed⟩ p
            (l.takeWhile (arrivedBy p.arrival)) rem hready2' hrem hpos hinv1 hrr1
          obtain ⟨g, c, hloopok, hkeys⟩ := IH f2 (by omega) _ hinv2 hrr2 (by
            rw [hW2, hWs1]
            push_cast at hbound
            omega)
          refine ⟨g, c, ?_, ?_⟩
          · rw [loopRR, hstep1]
            dsimp only
            rw [loopRR, hstep2]
            dsimp only
            exact hloopok
          · intro pid hpid
            apply hkeys
            apply htrans2
            simp only
            rw [hpend, hr0] at hpid
            simpa using hpid
      | cons r0 rs =>
        have hr0Q : r0 ∈ s.pending ++ s.ready := by
          have hqperm : (s.pending ++ s.ready).Perm
              (r0 :: (rs ++ s.pending.dropWhile (arrivedBy s.time))) :=
            queue_perm_of_pop_rr s.time s.pending s.ready r0 rs hready2
          exact hqperm.symm.subset (List.mem_cons_self _ _)
        obtain ⟨rem, hrem, hrem1⟩ := hrr r0 hr0Q
        have hmq1 : 1 ≤ min quantum rem := le_min hq1 hrem1
        by_cases hpos : 0 < rem - min quantum rem
        · have hstep1 := rrStep_slice_unfin_eq quantum n s r0 rs rem hlt hready2 hrem hpos
          obtain ⟨hinv2, hrr2, hW2, htrans2⟩ :=
            rrSliceUnfin_all quantum n s r0 rs rem hready2 hrem hpos hinv hrr
          obtain ⟨g, c, hloopok, hkeys⟩ := IH f (by omega) _ hinv2 hrr2 (by
            rw [hW2]
            push_cast at hbound
            omega)
          refine ⟨g, c, ?_, ?_⟩
          · rw [loopRR, hstep1]
            dsimp only
            exact hloopok
          · intro pid hpid
            exact hkeys pid (htrans2 pid hpid)
        · have hstep1 := rrStep_slice_fin_eq quantum n s r0 rs rem hlt hready2 hrem hpos
          obtain ⟨hinv2, hrr2, hW2, htrans2⟩ :=
            rrSliceFin_all quantum n s r0 rs rem hready2 hrem hpos hinv hrr
          obtain ⟨g, c, hloopok, hkeys⟩ := IH f (by omega) _ hinv2 hrr2 (by
            rw [hW2]
            push_cast at hbound
            omega)
          refine ⟨g, c, ?_, ?_⟩
          · rw [loopRR, hstep1]
            dsimp only
            exact hloopok
          · intro pid hpid
            exact hkeys pid (htrans2 pid hpid)
    · refine ⟨s.gantt, s.completed, ?_, ?_⟩
      · rw [loopRR, rrStep_done_eq quantum n s hlt]
      · obtain ⟨hlen, hnd, hcmp⟩ := hinv
        have hpend : s.pending = [] := List.eq_nil_of_length_eq_zero (by omega)
        have hready : s.ready = [] := List.eq_nil_of_length_eq_zero (by omega)
        intro pid hpid
        rcases hpid with hpid | hpid
        · exact hpid
        · exfalso
          rw [hpend, hready] at hpid
          simp at hpid

theorem fcfsLoop_keys :
    ∀ (l : List Process) (t : Int) (g : List Event) (r : Results),
      (∀ k : String, (dictGet k r).isSome → (dictGet k (fcfsLoop l t g r).2).isSome) ∧
      (∀ p ∈ l, (dictGet p.pid (fcfsLoop l t g r).2).isSome) := by
  intro l
  induction l with
  | nil =>
    intro t g r
    exact ⟨fun k h => h, fun p hp => absurd hp (List.not_mem_nil p)⟩
  | cons p ps ih =>
    intro t g r
    simp only [fcfsLoop]
    constructor
    · intro k hk
      exact (ih _ _ _).1 k (dictGet_insert_isSome _ _ _ _ hk)
    · intro x hx
      rcases List.mem_cons.mp hx with rfl | hm
      · exact (ih _ _ _).1 x.pid (by rw [dictGet_insert_self]; rfl)
      · exact (ih _ _ _).2 x hm

theorem buildResults_ok (completed : Dict Int) :
    ∀ (l : List Process) (acc : Results),
      (∀ p ∈ l, (dictGet p.pid completed).isSome) →
      ∃ res, buildResults completed l acc = .ok res ∧
        (∀ k : String, (dictGet k acc).isSome → (dictGet k res).isSome) ∧
        (∀ p ∈ l, (dictGet p.pid res).isSome) := by
  intro l
  induction l with
  | nil =>
    intro acc _
    exact ⟨acc, rfl, fun k h => h, fun p hp => absurd hp (List.not_mem_nil p)⟩
  | cons q l ih =>
    intro acc hall
    have hq := hall q (List.mem_cons_self _ _)
    obtain ⟨c, hc⟩ := Option.isSome_iff_exists.mp hq
    obtain ⟨res, hok, hmono, hl⟩ := ih (dictInsert q.pid ⟨q.arrival, q.burst, c⟩ acc)
      (fun p hp => hall p (List.mem_cons_of_mem _ hp))
    refine ⟨res, ?_, ?_, ?_⟩
    · rw [buildResults, hc]
      exact hok
    · intro k hk
      exact hmono k (dictGet_insert_isSome _ _ _ _ hk)
    · intro x hx
      rcases List.mem_cons.mp hx with rfl | hm
      · exact hmono x.pid (by rw [dictGet_insert_self]; rfl)
      · exact hl x hm

theorem sjfLike_terminates (key : Process → Int) (ps : List Process)
    (hne : ps ≠ []) (hnd : (ps.map Process.pid).Nodup) :
    ∃ g r, sjfLike key ps = .ok (g, r) ∧ ∀ p ∈ ps, (dictGet p.pid r).isSome := by
  cases hsort : sortByArrival ps with
  | nil =>
    exfalso
    have h0 := sortByArrival_perm ps
    rw [hsort] at h0
    exact hne h0.symm.eq_nil
  | cons p0 ps' =>
    have hperm : (p0 :: ps').Perm ps := by
      have h0 := sortByArrival_perm ps
      rwa [hsort] at h0
    have hndq : ((p0 :: ps').map Process.pid).Nodup :=
      ((hperm.map Process.pid).nodup_iff).mpr hnd
    have hinv : SPInv ps.length ⟨p0 :: ps', [], p0.arrival, [], []⟩ := by
      unfold SPInv
      refine ⟨?_, ?_, ?_⟩
      · simpa using hperm.length_eq
      · simpa using hndq
      · intro x hx; rfl
    obtain ⟨g, r, hok, hkeys⟩ := loopSP_terminates key ps.length (spFuel ps)
      ⟨p0 :: ps', [], p0.arrival, [], []⟩ hinv (by
        unfold spFuel
        have h4 := hperm.length_eq
        simp only [List.length_cons, List.length_nil] at h4 ⊢
        omega)
    refine ⟨g, r, ?_, ?_⟩
    · unfold sjfLike
      rw [hsort]
      dsimp only
      exact hok
    · intro p hp
      apply hkeys
      right
      simp only
      rw [List.append_nil]
      exact List.mem_map_of_mem Process.pid (hperm.mem_iff.mpr hp)

theorem round_robin_terminates (ps : List Process) (q : Int) (hq1 : 0 < q)
    (hne : ps ≠ []) (hnd : (ps.map Process.pid).Nodup)
    (hb : ∀ p ∈ ps, 0 < p.burst) :
    ∃ g r, round_robin ps q = .ok (g, r) ∧ ∀ p ∈ ps, (dictGet p.pid r).isSome := by
  cases hsort : sortByArrival ps with
  | nil =>
    exfalso
    have h0 := sortByArrival_perm ps
    rw [hsort] at h0
    exact hne h0.symm.eq_nil
  | cons p0 ps' =>
    have hperm : (p0 :: ps').Perm ps := by
      have h0 := sortByArrival_perm ps
      rwa [hsort] at h0
    have hndq : ((p0 :: ps').map Process.pid).Nodup :=
      ((hperm.map Process.pid).nodup_iff).mpr hnd
    have hinv : RRInv ps.length
        ⟨p0 :: ps', [], p0.arrival, [], initRemaining (p0 :: ps'), []⟩ := by
      unfold RRInv
      refine ⟨?_, ?_, ?_⟩
      · simpa using hperm.length_eq
      · simpa using hndq
      · intro x hx; rfl
    have hrr : RRRem ⟨p0 :: ps', [], p0.arrival, [], initRemaining (p0 :: ps'), []⟩ := by
      intro x hx
      simp only at hx
      rw [List.append_nil] at hx
      refine ⟨x.burst, initRemaining_get _ hndq x hx, hb x (hperm.subset hx)⟩
    have hWs0 : remSum ⟨p0 :: ps', [], p0.arrival, [], initRemaining (p0 :: ps'), []⟩ =
        ((p0 :: ps').map Process.burst).sum := by
      unfold remSum
      simp only
      rw [List.append_nil]
      apply congrArg List.sum
      apply List.map_congr_left
      intro x hx
      rw [initRemaining_get _ hndq x hx]
      rfl
    have hsum0 : 0 ≤ ((p0 :: ps').map Process.burst).sum := by
      apply List.sum_nonneg
      intro y hy
      obtain ⟨x, hx, hxy⟩ := List.mem_map.mp hy
      have := hb x (hperm.subset hx)
      omega
    have hsum_eq : ((p0 :: ps').map Process.burst).sum = ((ps.map Process.burst)).sum :=
      (hperm.map Process.burst).sum_eq
    obtain ⟨g, c, hok, hkeys⟩ := loopRR_terminates q hq1 ps.length (rrFuel ps)
      ⟨p0 :: ps', [], p0.arrival, [], initRemaining (p0 :: ps'), []⟩ hinv hrr (by
        rw [hWs0]
        unfold rrFuel
        rw [Int.toNat_of_nonneg (by rw [← hsum_eq]; omega)]
        rw [← hsum_eq])
    have hcall : ∀ p ∈ (p0 :: ps'), (dictGet p.pid c).isSome := by
      intro p hp
      apply hkeys
      right
      simp only
      rw [List.append_nil]
      exact List.mem_map_of_mem Process.pid hp
    obtain ⟨res, hbr, hmono, hall⟩ := buildResults_ok c (p0 :: ps') [] hcall
    refine ⟨g, res, ?_, ?_⟩
    · unfold round_robin
      rw [hsort]
      dsimp only
      rw [hok]
      dsimp only
      rw [hbr]
    · intro p hp
      exact hall p (hperm.mem_iff.mpr hp)

/-- C9 (confirmed): for every non-empty ProcessSet with unique pids and
positive bursts, and a positive quantum for Round Robin, every engine's main
loop terminates with a completion record for every process.  The embedding's
fuel (2n+1 iterations for SJF/Priority, 2*totalBurst+1 for Round Robin) is
proven sufficient, so the fuelled run equals the unbounded Python run. -/
theorem c9_termination (algo : Policy) (ps : List Process) (q : Int)
    (hne : ps ≠ []) (hnd : (ps.map Process.pid).Nodup)
    (hb : ∀ p ∈ ps, 0 < p.burst) (hq : algo = Policy.RoundRobin → 0 < q) :
    ∃ out, simulate algo ps q = .ok out ∧
      ∀ p ∈ ps, ∃ rec, dictGet p.pid out.2 = some rec := by
  cases algo with
  | FCFS =>
    refine ⟨fcfs ps, rfl, ?_⟩
    intro p hp
    apply Option.isSome_iff_exists.mp
    unfold fcfs
    exact (fcfsLoop_keys (sortByArrival ps) 0 [] []).2 p
      ((sortByArrival_perm ps).mem_iff.mpr hp)
  | SJF =>
    obtain ⟨g, r, hok, hall⟩ := sjfLike_terminates (fun p => p.burst) ps hne hnd
    exact ⟨(g, r), hok, fun p hp => Option.isSome_iff_exists.mp (hall p hp)⟩
  | Priority =>
    obtain ⟨g, r, hok, hall⟩ := sjfLike_terminates (fun p => p.priority) ps hne hnd
    exact ⟨(g, r), hok, fun p hp => Option.isSome_iff_exists.mp (hall p hp)⟩
  | RoundRobin =>
    obtain ⟨g, r, hok, hall⟩ := round_robin_terminates ps q (hq rfl) hne hnd hb
    exact ⟨(g, r), hok, fun p hp => Option.isSome_iff_exists.mp (hall p hp)⟩

/-- Witness for C9: Round Robin with quantum 2 on P1(0,4), P2(1,3) terminates
with a completion record for both processes. -/
theorem c9_witness :
    ∃ out, simulate .RoundRobin [⟨"P1", 0, 4, 1⟩, ⟨"P2", 1, 3, 1⟩] 2 = .ok out ∧
      ∀ p ∈ [(⟨"P1", 0, 4, 1⟩ : Process), ⟨"P2", 1, 3, 1⟩],
        ∃ rec, dictGet p.pid out.2 = some rec :=
  c9_termination .RoundRobin [⟨"P1", 0, 4, 1⟩, ⟨"P2", 1, 3, 1⟩] 2
    (by decide) (by decide) (by decide) (fun _ => by decide)

end CPUSched
